import Mathlib

/-!
Verification of the Connect Four solver (`src/main.rs`).

The Rust program is embedded shallowly over `Nat`/`Int`:

* `u64`/`u32` values are natural numbers; every operation that can overflow in
  Rust carries an explicit `% 2 ^ 64` (resp. `% 2 ^ 32`);
* `i8` scores are integers, converted through `toU8`/`toI8` (two's complement
  on the low 8 bits) exactly where the Rust code casts;
* the transposition table (an array of `2^31` atomic pairs) is a total function
  from indices to `(key, data)` pairs, and the solver threads it explicitly;
  this models the single-threaded executions of the program (rayon's
  `par_iter` on one worker runs the closures sequentially in order), which is
  the setting the single-threaded claims are about;
* the global node counter is reporting-only (the spec places it out of scope)
  and is omitted from the state.
-/

set_option maxHeartbeats 1000000

/-- Board width, `WIDTH` in the source. -/
def WIDTH : Nat := 7

/-- Board height, `HEIGHT` in the source. -/
def HEIGHT : Nat := 6

/-- Cell count, `SIZE = WIDTH * HEIGHT` in the source. -/
def SIZE : Nat := WIDTH * HEIGHT

/-- Number of table entries, `TABLE_ENTRIES` in the source. -/
def TABLE_ENTRIES : Nat := 2147483648

/-- Index mask, `INDEX_MASK = TABLE_ENTRIES - 1`. -/
def INDEX_MASK : Nat := TABLE_ENTRIES - 1

/-- The bitboard struct: `position` holds the discs of the player to move,
`mask` all occupied cells, `moves` the number of discs placed. -/
structure Board where
  position : Nat
  mask : Nat
  moves : Nat
  deriving Repr, DecidableEq

/-- Constructor `Board::new()`. -/
def Board.new : Board := { position := 0, mask := 0, moves := 0 }

/-- Legality check `Board::can_play`: `(mask & (1 << ((col * (HEIGHT + 1)) + HEIGHT - 1))) == 0`. -/
def Board.can_play (b : Board) (col : Nat) : Bool :=
  (b.mask &&& (1 <<< (col * (HEIGHT + 1) + HEIGHT - 1))) == 0

/-- Move application `Board::play`: xor-swap the perspective, then drop a disc in `col`.
The `u64` addition and the `u32` increment carry their wrap-arounds. -/
def Board.play (b : Board) (col : Nat) : Board :=
  { position := b.position ^^^ b.mask
    mask := b.mask ||| ((b.mask + (1 <<< (col * (HEIGHT + 1)))) % 2 ^ 64)
    moves := (b.moves + 1) % 2 ^ 32 }

/-- Win detection `Board::is_win`: the just-moved player's discs, tested along the four
shift deltas `[1, 7, 8, 9]` used by the source. -/
def Board.is_win (b : Board) : Bool :=
  let pos := b.position ^^^ b.mask
  [1, 7, 8, 9].any fun d =>
    let m := pos &&& (pos >>> d)
    (m &&& (m >>> (2 * d))) != 0

/-- Position key `Board::key() = position + mask` (a `u64` addition). -/
def Board.key (b : Board) : Nat := (b.position + b.mask) % 2 ^ 64

/-- The avalanche mix `hash_key`, with 64-bit wrapping multiplications, masked
into the index range. -/
def hash_key (x0 : Nat) : Nat :=
  let x1 := ((x0 ^^^ (x0 >>> 30)) * 0xbf58476d1ce4e5b9) % 2 ^ 64
  let x2 := ((x1 ^^^ (x1 >>> 27)) * 0x94d049bb133111eb) % 2 ^ 64
  let x3 := x2 ^^^ (x2 >>> 31)
  x3 &&& INDEX_MASK

/-- The transposition table: index to `(key, data)`. -/
def Table : Type := Nat → Nat × Nat

/-- The freshly created table: every entry is zero-initialized
(`AtomicU64::new(0)` for both fields). -/
def initTable : Table := fun _ => (0, 0)

/-- Cast `score as u8`: low 8 bits, two's complement. -/
def toU8 (s : Int) : Nat := (s % 256).toNat

/-- Cast `as u8 as i8`: reinterpret the low 8 bits of a word as a signed byte. -/
def toI8 (n : Nat) : Int :=
  if n % 256 < 128 then (n % 256 : Nat) else (n % 256 : Nat) - 256

/-- Truncating division by two on `i8` values (Rust `/` rounds toward zero). -/
def i8div2 (s : Int) : Int :=
  if 0 ≤ s then ((s.toNat / 2 : Nat) : Int) else -(((-s).toNat / 2 : Nat) : Int)

/-- Wrapping `u32` subtraction `a - b`. -/
def wsub32 (a b : Nat) : Nat := (a % 2 ^ 32 + 2 ^ 32 - b % 2 ^ 32) % 2 ^ 32

/-- Write path `Solver::store`: write `key` and the packed
`(best_col << 24) | (score as u8 << 16)` word into slot `hash_key key`. -/
def store (t : Table) (key : Nat) (score : Int) (best_col : Nat) : Table :=
  fun i =>
    if i = hash_key key then
      (key, (((best_col % 2 ^ 32) <<< 24) ||| (toU8 score <<< 16)) % 2 ^ 64)
    else t i

/-- Read path `Solver::lookup`: on a key match return the unpacked score and column. -/
def lookup (t : Table) (key : Nat) : Option Int × Option Nat :=
  let e := t (hash_key key)
  if e.1 = key then (some (toI8 (e.2 >>> 16)), some ((e.2 >>> 24) % 2 ^ 32))
  else (none, none)

/-- The static center-out move order `[3, 2, 4, 1, 5, 0, 6]`. -/
def baseOrder : List Nat := [3, 2, 4, 1, 5, 0, 6]

/-- Move the hinted best column (if any, and `< WIDTH`) to the front of the
order by swapping it with slot 0, exactly as `order.swap(0, pos)` does. -/
def applyHint (bc? : Option Nat) : List Nat :=
  match bc? with
  | none => baseOrder
  | some bc =>
    if bc < WIDTH then
      match baseOrder.findIdx? (fun x => x == bc) with
      | some p => (baseOrder.set 0 (baseOrder.getD p 0)).set p (baseOrder.getD 0 0)
      | none => baseOrder
    else baseOrder

/-- The immediate-win scan of `solve`: some column in `order` is playable and
playing it makes `is_win` true.  The value the Rust loop then returns does not
depend on which column fired, so the loop is embedded as `List.any`. -/
def winScan (b : Board) (order : List Nat) : Bool :=
  order.any fun col => b.can_play col && (b.play col).is_win

/-- The score returned by the immediate-win short-circuit:
`(SIZE + 1 - board.moves) as i8 / 2` (computed in `u32`, cast to `i8`). -/
def winVal (b : Board) : Int := i8div2 (toI8 (wsub32 (SIZE + 1) b.moves))

/-- Bound `max_p = (SIZE - 1 - board.moves) as i8 / 2`. -/
def maxPVal (b : Board) : Int := i8div2 (toI8 (wsub32 (SIZE - 1) b.moves))

/-- The `p_depth < 4` branch: run every legal child and collect
`(-childScore, col)` in order, threading the table (the sequential execution
of the `par_iter().filter_map().collect()`).  `slv` is the solver at the
remaining fuel. -/
def collectPar (slv : Table → Board → Int → Int → Option (Int × Table))
    (b : Board) (alpha beta : Int) :
    List Nat → Table → Option (List (Int × Nat) × Table)
  | [], t => some ([], t)
  | col :: rest, t =>
    if b.can_play col then
      match slv t (b.play col) (-beta) (-alpha) with
      | none => none
      | some (s, t1) =>
        match collectPar slv b alpha beta rest t1 with
        | none => none
        | some (l, t2) => some ((-s, col) :: l, t2)
    else collectPar slv b alpha beta rest t

/-- Folding the collected parallel results: track `max_s`/`current_best`,
raise `alpha`, break on `alpha >= beta` (after the updates, as in the
source). -/
def parFold : List (Int × Nat) → Int → Int → Int → Nat → Int × Nat
  | [], _, _, maxS, best => (maxS, best)
  | (score, col) :: rest, alpha, beta, maxS, best =>
    let maxS1 := if score > maxS then score else maxS
    let best1 := if score > maxS then col else best
    let alpha1 := if score > alpha then score else alpha
    if alpha1 ≥ beta then (maxS1, best1)
    else parFold rest alpha1 beta maxS1 best1

/-- The `p_depth >= 4` branch: strictly sequential exploration with the
standard cutoff `break` after each child. -/
def seqLoop (slv : Table → Board → Int → Int → Option (Int × Table))
    (b : Board) (beta : Int) :
    List Nat → Table → Int → Int → Nat → Option (Int × Nat × Table)
  | [], t, _, maxS, best => some (maxS, best, t)
  | col :: rest, t, alpha, maxS, best =>
    if b.can_play col then
      match slv t (b.play col) (-beta) (-alpha) with
      | none => none
      | some (s0, t1) =>
        let score := -s0
        let maxS1 := if score > maxS then score else maxS
        let best1 := if score > maxS then col else best
        let alpha1 := if score > alpha then score else alpha
        if alpha1 ≥ beta then some (maxS1, best1, t1)
        else seqLoop slv b beta rest t1 alpha1 maxS1 best1
    else seqLoop slv b beta rest t alpha maxS best

/-- The `p_depth < 4` branch as a whole: collect the child results, then fold
them with the alpha/beta updates, yielding `(max_s, current_best)` and the
threaded table. -/
def parRun (slv : Table → Board → Int → Int → Option (Int × Table))
    (b : Board) (alpha beta1 : Int) (order : List Nat) (t : Table) :
    Option (Int × Nat × Table) :=
  match collectPar slv b alpha beta1 order t with
  | none => none
  | some (results, t1) =>
    let mb := parFold results alpha beta1 (-22) (order.headD 0)
    some (mb.1, mb.2, t1)

/-- The tail of `solve`: `self.store(key, max_s, current_best); max_s`. -/
def finishStore (key : Nat) (res : Option (Int × Nat × Table)) :
    Option (Int × Table) :=
  match res with
  | none => none
  | some (maxS, best, t1) => some (maxS, store t1 key maxS best)

/-- Search `Solver::solve`, with explicit fuel (the Rust recursion is bounded by the
`moves` counter; `solveFuel` returns `none` only when the fuel runs out).
All branches follow the source line by line; the node counter is omitted. -/
def solveFuel : Nat → Table → Board → Int → Int → Nat → Option (Int × Table)
  | 0, _, _, _, _, _ => none
  | f + 1, t, b, alpha, beta, pDepth =>
    if b.moves = SIZE then some (0, t)
    else
      let key := b.key
      let looked := lookup t key
      if looked.1.isSome ∧ alpha ≥ beta then some (looked.1.getD 0, t)
      else
        let order := applyHint looked.2
        if winScan b order then some (winVal b, t)
        else
          let maxP := maxPVal b
          let beta1 := if beta > maxP then maxP else beta
          if beta > maxP ∧ alpha ≥ beta1 then some (beta1, t)
          else
            finishStore key
              (if pDepth < 4 then
                parRun (fun t2 b2 a2 c2 => solveFuel f t2 b2 a2 c2 (pDepth + 1))
                  b alpha beta1 order t
              else
                seqLoop (fun t2 b2 a2 c2 => solveFuel f t2 b2 a2 c2 (pDepth + 1))
                  b beta1 order t alpha (-22) (order.headD 0))

/-- The root driver's task list for one first move: for every legal `col2`, an
immediate win yields the sentinel task `(col2, 999, 21)`, otherwise one task
`(col2, col3, 0)` per legal `col3`. -/
def rootTasks (b1 : Board) : List (Nat × Nat × Int) :=
  (List.range WIDTH).flatMap fun col2 =>
    if b1.can_play col2 then
      let b2 := b1.play col2
      if b2.is_win then [(col2, 999, 21)]
      else
        (List.range WIDTH).filterMap fun col3 =>
          if b2.can_play col3 then some (col2, col3, (0 : Int)) else none
    else []

/-- Score one task, as the root driver's closure does: a nonzero pre-score is
returned as is; otherwise the three moves are replayed from scratch, an
immediate win yields 21, and otherwise the solver runs at window `[-22, 22]`,
depth 0. -/
def taskScore (fuel : Nat) (t : Table) (col1 : Nat) (task : Nat × Nat × Int) :
    Option (Int × Table) :=
  if task.2.2 ≠ 0 then some (task.2.2, t)
  else
    let b3 := ((Board.new.play col1).play task.1).play task.2.1
    if b3.is_win then some (21, t)
    else solveFuel fuel t b3 (-22) 22 0

/-- Run the task list, threading the shared table (the sequential execution of
the root `into_par_iter().map().collect()`), producing `(col2, score)` pairs. -/
def runTasks (fuel : Nat) (col1 : Nat) :
    List (Nat × Nat × Int) → Table → Option (List (Nat × Int) × Table)
  | [], t => some ([], t)
  | task :: rest, t =>
    match taskScore fuel t col1 task with
    | none => none
    | some (s, t1) =>
      match runTasks fuel col1 rest t1 with
      | none => none
      | some (l, t2) => some ((task.1, s) :: l, t2)

/-- The `min_scores` HashMap, modeled as a partial function on column
indices. -/
def mapInsertMin (m : Nat → Option Int) (c : Nat) (s : Int) : Nat → Option Int :=
  fun x => if x = c then some (min ((m c).getD 22) s) else m x

/-- Maximum of a list, `None` on the empty list (`Iterator::max`). -/
def listMax? : List Int → Option Int :=
  List.foldl (fun acc x => match acc with
    | none => some x
    | some m => some (max m x)) none

/-- Minimum of a list, `None` on the empty list. -/
def listMin? : List Int → Option Int :=
  List.foldl (fun acc x => match acc with
    | none => some x
    | some m => some (min m x)) none

/-- The root driver's aggregation: fold the results into `min_scores`
(`entry(c2).or_insert(22)` then `min`), then `values().max().unwrap_or(&0)`.
Every key is a column in `0..7`, so enumerating `0..7` in order lists exactly
the map's values (the HashMap iteration order is arbitrary, and `max` does not
depend on it). -/
def aggregate (results : List (Nat × Int)) : Int :=
  let m := results.foldl (fun m p => mapInsertMin m p.1 p.2) (fun _ => none)
  (listMax? ((List.range WIDTH).filterMap m)).getD 0

/-- Follows the spec's words (§4.4): the maximum, over all distinct legal
second moves, of the minimum score across that second move's third-move
children. -/
def specRootValue (b1 : Board) (results : List (Nat × Int)) : Int :=
  (listMax? (((List.range WIDTH).filter (fun c2 => b1.can_play c2)).map
    (fun c2 => (listMin? ((results.filter (fun p => p.1 = c2)).map Prod.snd)).getD 0))).getD 0

/-- Follows the spec's words (§8, win detection): the just-moved player holds
four contiguous cells in a column, a row, or either diagonal.  Cell `(c, r)`
is bit `c * 7 + r` of the bitboard. -/
def specFourInARow (b : Board) : Bool :=
  let pos := b.position ^^^ b.mask
  (List.range 7).any fun c => (List.range 6).any fun r =>
    (decide (r + 3 < 6) && ((List.range 4).all fun k => pos.testBit (c * 7 + (r + k)))) ||
    (decide (c + 3 < 7) && ((List.range 4).all fun k => pos.testBit ((c + k) * 7 + r))) ||
    (decide (c + 3 < 7) && decide (r + 3 < 6) &&
      ((List.range 4).all fun k => pos.testBit ((c + k) * 7 + (r + k)))) ||
    (decide (c + 3 < 7) && decide (r + 3 < 6) &&
      ((List.range 4).all fun k => pos.testBit ((c + k) * 7 + (r + 3 - k))))

/-- Follows the spec's words (§8, legality): the number of discs column `col`
holds, i.e. the number of occupied cells among the column's six cells. -/
def specColDiscs (b : Board) (col : Nat) : Nat :=
  ((Finset.range 6).filter (fun r => b.mask.testBit (col * 7 + r))).card

/-- Boards reachable from the empty board by legal moves (each move is a
column in range that `can_play` accepts, as every caller in the source
guarantees). -/
inductive Reachable : Board → Prop
  | base : Reachable Board.new
  | step (b : Board) (col : Nat) (hr : Reachable b) (hcol : col < 7)
      (hcp : b.can_play col = true) : Reachable (b.play col)

/-- Number of set bits among the low 64 (the `u64` population count). -/
def discCount (n : Nat) : Nat :=
  ((Finset.range 64).filter (fun i => n.testBit i)).card

/-- Valid boards in the sense of claim C8: `moves` is the population count of
`mask`, at most 42, `position` is a subset of `mask`, and both words fit in a
`u64`. -/
def Valid (b : Board) : Prop :=
  b.moves = discCount b.mask ∧ b.moves ≤ 42 ∧
  b.position &&& b.mask = b.position ∧ b.position < 2 ^ 64 ∧ b.mask < 2 ^ 64

/-- The board after the ten legal moves `3 2 2 1 1 0 1 0 0 6` (columns,
0-indexed).  The player to move holds `(3,0) (2,1) (1,2)` on the ↘ diagonal,
and column 0 is playable with `(0,3)` completing the run. -/
def b10 : Board := [3, 2, 2, 1, 1, 0, 1, 0, 0, 6].foldl Board.play Board.new

/-- The board after the eleventh move: the just-moved player holds four discs
on the ↘ diagonal `(0,3) (1,2) (2,1) (3,0)`. -/
def b11 : Board := b10.play 0


/-! ### Bit-arithmetic toolkit -/

theorem testBit_add_mul_two_pow (s a m i : Nat) (ha : a < 2 ^ s) :
    (a + 2 ^ s * m).testBit i = if i < s then a.testBit i else m.testBit (i - s) := by
  rcases lt_or_le i s with h | h
  · simp only [if_pos h, Nat.testBit_to_div_mod]
    have hrw : 2 ^ s * m = 2 ^ i * (2 ^ (s - i) * m) := by
      rw [← Nat.mul_assoc, ← pow_add]
      congr 2
      omega
    rw [hrw, Nat.add_mul_div_left _ _ (Nat.pos_pow_of_pos i (by norm_num))]
    have h2 : 2 ^ (s - i) * m = 2 * (2 ^ (s - i - 1) * m) := by
      rw [← Nat.mul_assoc]
      congr 1
      rw [← pow_succ']
      congr 1
      omega
    rw [h2, Nat.add_mul_mod_self_left]
  · simp only [if_neg (Nat.not_lt.mpr h), Nat.testBit_to_div_mod]
    have hrw : (a + 2 ^ s * m) / 2 ^ i = m / 2 ^ (i - s) := by
      have h1 : (2 : Nat) ^ i = 2 ^ s * 2 ^ (i - s) := by
        rw [← pow_add]
        congr 1
        omega
      rw [h1, ← Nat.div_div_eq_div_mul, Nat.mul_comm (2 ^ s) m,
        Nat.add_mul_div_right _ _ (Nat.pos_pow_of_pos s (by norm_num)),
        Nat.div_eq_of_lt ha, Nat.zero_add]
    rw [hrw]

theorem or_add_mul_two_pow (s a b x y : Nat) (ha : a < 2 ^ s) (hb : b < 2 ^ s) :
    (a + 2 ^ s * x) ||| (b + 2 ^ s * y) = (a ||| b) + 2 ^ s * (x ||| y) := by
  apply Nat.eq_of_testBit_eq
  intro i
  rw [Nat.testBit_or, testBit_add_mul_two_pow s a x i ha,
    testBit_add_mul_two_pow s b y i hb,
    testBit_add_mul_two_pow s (a ||| b) (x ||| y) i (Nat.or_lt_two_pow ha hb)]
  rcases lt_or_le i s with h | h
  · simp [h, Nat.testBit_or]
  · simp [Nat.not_lt.mpr h, Nat.testBit_or]

theorem xor_add_mul_two_pow (s a b x y : Nat) (ha : a < 2 ^ s) (hb : b < 2 ^ s) :
    (a + 2 ^ s * x) ^^^ (b + 2 ^ s * y) = (a ^^^ b) + 2 ^ s * (x ^^^ y) := by
  apply Nat.eq_of_testBit_eq
  intro i
  rw [Nat.testBit_xor, testBit_add_mul_two_pow s a x i ha,
    testBit_add_mul_two_pow s b y i hb,
    testBit_add_mul_two_pow s (a ^^^ b) (x ^^^ y) i (Nat.xor_lt_two_pow ha hb)]
  rcases lt_or_le i s with h | h
  · simp [h, Nat.testBit_xor]
  · simp [Nat.not_lt.mpr h, Nat.testBit_xor]

theorem or_two_pow_mul_of_lt (s a m : Nat) (ha : a < 2 ^ s) :
    a ||| 2 ^ s * m = a + 2 ^ s * m := by
  have h := or_add_mul_two_pow s a 0 0 m ha (Nat.pos_pow_of_pos s (by norm_num))
  simpa using h

theorem and_two_pow_eq_zero_iff (x n : Nat) :
    x &&& 2 ^ n = 0 ↔ x.testBit n = false := by
  constructor
  · intro h
    have h1 : (x &&& 2 ^ n).testBit n = false := by
      rw [h]
      exact Nat.zero_testBit n
    rw [Nat.testBit_and, Nat.testBit_two_pow_self] at h1
    simpa using h1
  · intro h
    apply Nat.eq_of_testBit_eq
    intro i
    rw [Nat.testBit_and, Nat.zero_testBit]
    rcases eq_or_ne n i with rfl | hne
    · simp [h]
    · simp [Nat.testBit_two_pow, hne]

/-! ### Claims C1, C2, C5, C9: direct evaluations and the `can_play` bit -/

theorem b10_reachable : Reachable b10 := by
  have h0 : Reachable Board.new := Reachable.base
  have h1 := Reachable.step _ 3 h0 (by norm_num) (by decide)
  have h2 := Reachable.step _ 2 h1 (by norm_num) (by decide)
  have h3 := Reachable.step _ 2 h2 (by norm_num) (by decide)
  have h4 := Reachable.step _ 1 h3 (by norm_num) (by decide)
  have h5 := Reachable.step _ 1 h4 (by norm_num) (by decide)
  have h6 := Reachable.step _ 0 h5 (by norm_num) (by decide)
  have h7 := Reachable.step _ 1 h6 (by norm_num) (by decide)
  have h8 := Reachable.step _ 0 h7 (by norm_num) (by decide)
  have h9 := Reachable.step _ 0 h8 (by norm_num) (by decide)
  exact Reachable.step _ 6 h9 (by norm_num) (by decide)

/-- C1 (status: code_bug).  The board `b11`, reached from the empty board by
eleven legal moves, gives the just-moved player four contiguous discs on the
↘ diagonal, yet `is_win` returns `false`: the source tests the shift deltas
`{1, 7, 8, 9}`, and the ↘ diagonal of the 7-bit column stride is delta 6
(delta 9 matches no board line).  The claim says `is_win` must be true here. -/
theorem claim_C1 :
    Reachable b11 ∧ specFourInARow b11 = true ∧ b11.is_win = false :=
  ⟨Reachable.step b10 0 b10_reachable (by norm_num) (by decide),
    by decide, by decide⟩

/-- C2 counterexample.  For the board with `mask = 2^6` (only the guard bit of
column 0 set, its six cells empty), `can_play 0` is true although the guard
bit is set, refuting the claimed equivalence "can_play ↔ guard bit unset". -/
theorem claim_C2_counterexample :
    ¬ (((Board.mk 0 (2 ^ 6) 1).can_play 0 = true) ↔
      ((Board.mk 0 (2 ^ 6) 1).mask.testBit (0 * (HEIGHT + 1) + HEIGHT) = false)) := by
  decide

/-- C2 amended: `can_play col` is true iff the *topmost cell* bit of column
`col` — bit `col * (HEIGHT + 1) + HEIGHT - 1`, i.e. `col * 7 + 5`, the highest
bit of the column's 6-bit cell field, not the guard bit above it — is unset in
`mask`. -/
theorem claim_C2_amended (b : Board) (col : Fin 7) :
    b.can_play col = true ↔ b.mask.testBit ((col : Nat) * 7 + 5) = false := by
  have hidx : (col : Nat) * (HEIGHT + 1) + HEIGHT - 1 = (col : Nat) * 7 + 5 := by
    simp [HEIGHT]
  rw [Board.can_play, beq_iff_eq, hidx, Nat.one_shiftLeft]
  exact and_two_pow_eq_zero_iff b.mask ((col : Nat) * 7 + 5)

/-- C5 (status: code_bug).  At `b10` the player to move has three discs in a
row (the ↘ diagonal `(1,2) (2,1) (3,0)`) with the open, legally playable
fourth cell `(0,3)` completing the run, yet no playable column passes the
solver's immediate-win scan (`next.is_win()` misses the delta-6 diagonal), so
`solve` does not take the short-circuit return the claim describes. -/
theorem claim_C5 :
    Reachable b10 ∧
    (b10.can_play 0 = true ∧ specFourInARow (b10.play 0) = true) ∧
    winScan b10 baseOrder = false ∧
    ((List.range 7).all fun col =>
      !(b10.can_play col && (b10.play col).is_win)) = true :=
  ⟨b10_reachable, by decide, by decide, by decide⟩

/-- C9: the empty board's key is 0, and on the freshly zero-initialized table
`lookup 0` is a hit returning score 0 and column 0 (the zero entry is
indistinguishable from a stored entry for key 0). -/
theorem claim_C9 :
    Board.new.key = 0 ∧ lookup initTable Board.new.key = (some 0, some 0) := by
  decide

/-! ### Claim C7: store/lookup round trip -/

theorem toI8_toU8 (s : Int) (h1 : -128 ≤ s) (h2 : s < 128) : toI8 (toU8 s) = s := by
  unfold toI8 toU8
  have hmod : (0 : Int) ≤ s % 256 := Int.emod_nonneg s (by norm_num)
  have hmod2 : s % 256 < 256 := Int.emod_lt_of_pos s (by norm_num)
  split <;> omega

/-- C7: in a single-threaded execution, `store(k, s, c)` followed immediately
by `lookup(k)` with no intervening write returns exactly `(Some s, Some c)`:
the packing of the score into bits 16..23 and the column into bits 24.. of
the data word round-trips. -/
theorem claim_C7 (t : Table) (k : Nat) (s : Int) (c : Nat)
    (hk : k < 2 ^ 64) (hs1 : -128 ≤ s) (hs2 : s < 128) (hc : c < 7) :
    lookup (store t k s c) k = (some s, some c) := by
  have hu8 : toU8 s < 256 := by
    unfold toU8
    have hmod : (0 : Int) ≤ s % 256 := Int.emod_nonneg s (by norm_num)
    have hmod2 : s % 256 < 256 := Int.emod_lt_of_pos s (by norm_num)
    omega
  have hu16 : toU8 s * 2 ^ 16 < 2 ^ 24 := by
    calc toU8 s * 2 ^ 16 < 256 * 2 ^ 16 := (Nat.mul_lt_mul_right (by norm_num)).mpr hu8
      _ = 2 ^ 24 := by norm_num
  have hcm : c % 2 ^ 32 = c := Nat.mod_eq_of_lt (by omega)
  have hdata : (((c % 2 ^ 32) <<< 24) ||| (toU8 s <<< 16)) % 2 ^ 64
      = toU8 s * 2 ^ 16 + 2 ^ 24 * c := by
    rw [hcm, Nat.shiftLeft_eq, Nat.shiftLeft_eq]
    have hor : c * 2 ^ 24 ||| toU8 s * 2 ^ 16 = toU8 s * 2 ^ 16 + 2 ^ 24 * c := by
      rw [Nat.lor_comm, Nat.mul_comm c (2 ^ 24)]
      exact or_two_pow_mul_of_lt 24 (toU8 s * 2 ^ 16) c hu16
    rw [hor]
    apply Nat.mod_eq_of_lt
    have h7 : 2 ^ 24 * c < 2 ^ 24 * 7 := (Nat.mul_lt_mul_left (by norm_num)).mpr hc
    omega
  have hs16 : (toU8 s * 2 ^ 16 + 2 ^ 24 * c) >>> 16 = toU8 s + 2 ^ 8 * c := by
    rw [Nat.shiftRight_eq_div_pow]
    have hfac : toU8 s * 2 ^ 16 + 2 ^ 24 * c = 2 ^ 16 * (toU8 s + 2 ^ 8 * c) := by ring
    rw [hfac, Nat.mul_div_cancel_left _ (by norm_num : (0:Nat) < 2 ^ 16)]
  have hs24 : (toU8 s * 2 ^ 16 + 2 ^ 24 * c) >>> 24 = c := by
    rw [Nat.shiftRight_eq_div_pow]
    rw [Nat.add_mul_div_left _ _ (by norm_num : (0:Nat) < 2 ^ 24),
      Nat.div_eq_of_lt hu16, Nat.zero_add]
  have htoI8 : toI8 (toU8 s + 2 ^ 8 * c) = s := by
    have hmod : (toU8 s + 2 ^ 8 * c) % 256 = toU8 s % 256 := by
      have h256 : (2 : Nat) ^ 8 * c = 256 * c := by norm_num
      rw [h256, Nat.add_mul_mod_self_left]
    unfold toI8
    rw [hmod]
    have hfin := toI8_toU8 s hs1 hs2
    unfold toI8 at hfin
    exact hfin
  have hres : lookup (store t k s c) k
      = (some (toI8 (((((c % 2 ^ 32) <<< 24) ||| (toU8 s <<< 16)) % 2 ^ 64) >>> 16)),
         some ((((((c % 2 ^ 32) <<< 24) ||| (toU8 s <<< 16)) % 2 ^ 64) >>> 24) % 2 ^ 32)) := by
    simp [lookup, store]
  rw [hres, hdata, hs16, hs24, htoI8, hcm]

/-- C7 witness at concrete values: table fresh, key 123, score -5, column 6. -/
theorem claim_C7_witness :
    (123 : Nat) < 2 ^ 64 ∧ (-128 : Int) ≤ -5 ∧ (-5 : Int) < 128 ∧ (6 : Nat) < 7 ∧
    lookup (store initTable 123 (-5) 6) 123 = (some (-5), some 6) :=
  ⟨by norm_num, by norm_num, by norm_num, by norm_num,
    claim_C7 initTable 123 (-5) 6 (by norm_num) (by norm_num) (by norm_num) (by norm_num)⟩

/-! ### Base-128 column encoding

A reachable bitboard is, column by column, a stack of discs: column `c`
contributes the digit `2 ^ h - 1` (its `h` discs) to `mask` and a digit
`p < 2 ^ h` (the mover's discs among them) to `position`, both at weight
`128 ^ c`.  `encode` assembles such digit lists. -/

def encode : List Nat → Nat
  | [] => 0
  | d :: ds => d + 128 * encode ds

theorem encode_cons (d : Nat) (ds : List Nat) :
    encode (d :: ds) = d + 2 ^ 7 * encode ds := by
  show d + 128 * encode ds = d + 2 ^ 7 * encode ds
  norm_num

theorem encode_lt (l : List Nat) (hd : ∀ d ∈ l, d < 128) :
    encode l < 128 ^ l.length := by
  induction l with
  | nil => simp [encode]
  | cons d ds ih =>
    have h1 : d < 128 := hd d (List.mem_cons_self d ds)
    have h2 : encode ds < 128 ^ ds.length := ih fun x hx => hd x (List.mem_cons_of_mem d hx)
    show d + 128 * encode ds < 128 ^ (ds.length + 1)
    have h3 : (128 : Nat) ^ (ds.length + 1) = 128 * 128 ^ ds.length := by ring
    rw [h3]
    omega

theorem encode_testBit (l : List Nat) (hd : ∀ d ∈ l, d < 128) (c r : Nat) (hr : r < 7) :
    (encode l).testBit (7 * c + r) = (l.getD c 0).testBit r := by
  induction l generalizing c with
  | nil =>
    show (0 : Nat).testBit (7 * c + r) = ((0 : Nat)).testBit r
    rw [Nat.zero_testBit, Nat.zero_testBit]
  | cons d ds ih =>
    have h1 : d < 2 ^ 7 := by
      have := hd d (List.mem_cons_self d ds)
      norm_num
      omega
    rw [encode_cons, testBit_add_mul_two_pow 7 d (encode ds) (7 * c + r) h1]
    cases c with
    | zero =>
      simp only [Nat.mul_zero, Nat.zero_add]
      rw [if_pos hr]
      rfl
    | succ c =>
      have hge : ¬ (7 * (c + 1) + r < 7) := by omega
      rw [if_neg hge]
      have hidx : 7 * (c + 1) + r - 7 = 7 * c + r := by omega
      rw [hidx, ih (fun x hx => hd x (List.mem_cons_of_mem d hx)) c]
      rfl

theorem encode_digit (l : List Nat) (hd : ∀ d ∈ l, d < 128) (c : Nat) :
    encode l / 128 ^ c % 128 = l.getD c 0 := by
  induction l generalizing c with
  | nil => simp [encode]
  | cons d ds ih =>
    have h1 : d < 128 := hd d (List.mem_cons_self d ds)
    cases c with
    | zero =>
      show (d + 128 * encode ds) / 128 ^ 0 % 128 = d
      rw [pow_zero, Nat.div_one, Nat.add_mul_mod_self_left, Nat.mod_eq_of_lt h1]
    | succ c =>
      show (d + 128 * encode ds) / 128 ^ (c + 1) % 128 = ds.getD c 0
      have hsplit : (d + 128 * encode ds) / 128 ^ (c + 1)
          = encode ds / 128 ^ c := by
        have hpow : (128 : Nat) ^ (c + 1) = 128 * 128 ^ c := by ring
        rw [hpow, ← Nat.div_div_eq_div_mul,
          Nat.add_mul_div_left _ _ (by norm_num : (0:Nat) < 128),
          Nat.div_eq_of_lt h1, Nat.zero_add]
      rw [hsplit, ih fun x hx => hd x (List.mem_cons_of_mem d hx)]

theorem encode_add (l1 l2 : List Nat) (hlen : l1.length = l2.length) :
    encode (List.zipWith (· + ·) l1 l2) = encode l1 + encode l2 := by
  induction l1 generalizing l2 with
  | nil =>
    cases l2 with
    | nil => rfl
    | cons b bs => simp at hlen
  | cons a as ih =>
    cases l2 with
    | nil => simp at hlen
    | cons b bs =>
      have hlen2 : as.length = bs.length := by simpa using hlen
      show (a + b) + 128 * encode (List.zipWith (· + ·) as bs)
          = (a + 128 * encode as) + (b + 128 * encode bs)
      rw [ih bs hlen2]
      ring

theorem encode_or (l1 l2 : List Nat) (hlen : l1.length = l2.length)
    (h1 : ∀ d ∈ l1, d < 128) (h2 : ∀ d ∈ l2, d < 128) :
    encode (List.zipWith (· ||| ·) l1 l2) = encode l1 ||| encode l2 := by
  induction l1 generalizing l2 with
  | nil =>
    cases l2 with
    | nil => rfl
    | cons b bs => simp at hlen
  | cons a as ih =>
    cases l2 with
    | nil => simp at hlen
    | cons b bs =>
      have hlen2 : as.length = bs.length := by simpa using hlen
      have ha : a < 2 ^ 7 := by
        have := h1 a (List.mem_cons_self a as)
        norm_num
        omega
      have hb : b < 2 ^ 7 := by
        have := h2 b (List.mem_cons_self b bs)
        norm_num
        omega
      show (a ||| b) + 128 * encode (List.zipWith (· ||| ·) as bs)
          = (a + 128 * encode as) ||| (b + 128 * encode bs)
      rw [ih bs hlen2 (fun x hx => h1 x (List.mem_cons_of_mem a hx))
        (fun x hx => h2 x (List.mem_cons_of_mem b hx))]
      have hrw : (128 : Nat) = 2 ^ 7 := by norm_num
      rw [hrw, or_add_mul_two_pow 7 a b (encode as) (encode bs) ha hb]

theorem encode_xor (l1 l2 : List Nat) (hlen : l1.length = l2.length)
    (h1 : ∀ d ∈ l1, d < 128) (h2 : ∀ d ∈ l2, d < 128) :
    encode (List.zipWith (· ^^^ ·) l1 l2) = encode l1 ^^^ encode l2 := by
  induction l1 generalizing l2 with
  | nil =>
    cases l2 with
    | nil => rfl
    | cons b bs => simp at hlen
  | cons a as ih =>
    cases l2 with
    | nil => simp at hlen
    | cons b bs =>
      have hlen2 : as.length = bs.length := by simpa using hlen
      have ha : a < 2 ^ 7 := by
        have := h1 a (List.mem_cons_self a as)
        norm_num
        omega
      have hb : b < 2 ^ 7 := by
        have := h2 b (List.mem_cons_self b bs)
        norm_num
        omega
      show (a ^^^ b) + 128 * encode (List.zipWith (· ^^^ ·) as bs)
          = (a + 128 * encode as) ^^^ (b + 128 * encode bs)
      rw [ih bs hlen2 (fun x hx => h1 x (List.mem_cons_of_mem a hx))
        (fun x hx => h2 x (List.mem_cons_of_mem b hx))]
      have hrw : (128 : Nat) = 2 ^ 7 := by norm_num
      rw [hrw, xor_add_mul_two_pow 7 a b (encode as) (encode bs) ha hb]

theorem encode_set_add (l : List Nat) (c k : Nat) (hc : c < l.length) :
    encode (l.set c (l.getD c 0 + k)) = encode l + 2 ^ (7 * c) * k := by
  induction l generalizing c with
  | nil => simp at hc
  | cons d ds ih =>
    cases c with
    | zero =>
      show (d + k) + 128 * encode ds = (d + 128 * encode ds) + 2 ^ (7 * 0) * k
      ring_nf
    | succ c =>
      have hc2 : c < ds.length := by simpa using hc
      show d + 128 * encode (ds.set c (ds.getD c 0 + k))
          = (d + 128 * encode ds) + 2 ^ (7 * (c + 1)) * k
      rw [ih c hc2]
      have hpow : (2 : Nat) ^ (7 * (c + 1)) = 128 * 2 ^ (7 * c) := by
        have harg : 7 * (c + 1) = 7 + 7 * c := by ring
        rw [harg, pow_add]
        norm_num
      rw [hpow]
      ring

/-! ### List access and counting helpers -/

theorem getD_map_fst (l : List (Nat × Nat)) (c : Nat) :
    (l.map Prod.fst).getD c 0 = (l.getD c (0, 0)).1 := by
  induction l generalizing c with
  | nil => rfl
  | cons x xs ih =>
    cases c with
    | zero => rfl
    | succ c => exact ih c

theorem getD_map_of_lt (f : Nat × Nat → Nat) (l : List (Nat × Nat)) (c : Nat)
    (hc : c < l.length) : (l.map f).getD c 0 = f (l.getD c (0, 0)) := by
  induction l generalizing c with
  | nil => simp at hc
  | cons x xs ih =>
    cases c with
    | zero => rfl
    | succ c => exact ih c (by simpa using hc)

theorem getD_mem_of_lt (l : List (Nat × Nat)) (c : Nat) (hc : c < l.length) :
    l.getD c (0, 0) ∈ l := by
  induction l generalizing c with
  | nil => simp at hc
  | cons x xs ih =>
    cases c with
    | zero => exact List.mem_cons_self x xs
    | succ c => exact List.mem_cons_of_mem x (ih c (by simpa using hc))

theorem sum_set_add (l : List Nat) (c k : Nat) (hc : c < l.length) :
    (l.set c (l.getD c 0 + k)).sum = l.sum + k := by
  induction l generalizing c with
  | nil => simp at hc
  | cons d ds ih =>
    cases c with
    | zero => simp [List.sum_cons]; ring
    | succ c =>
      have hc2 : c < ds.length := by simpa using hc
      have hgd : (d :: ds).getD (c + 1) 0 = ds.getD c 0 := rfl
      show (d :: ds.set c ((d :: ds).getD (c + 1) 0 + k)).sum = (d :: ds).sum + k
      rw [hgd, List.sum_cons, List.sum_cons, ih c hc2]
      ring

theorem set_getD_self (l : List Nat) (c : Nat) (hc : c < l.length) :
    l.set c (l.getD c 0) = l := by
  induction l generalizing c with
  | nil => simp at hc
  | cons d ds ih =>
    cases c with
    | zero => rfl
    | succ c =>
      have hc2 : c < ds.length := by simpa using hc
      show d :: ds.set c (ds.getD c 0) = d :: ds
      rw [ih c hc2]

theorem zipWith_or_self (l : List Nat) :
    List.zipWith (· ||| ·) l l = l := by
  induction l with
  | nil => rfl
  | cons e es ih =>
    show (e ||| e) :: List.zipWith (· ||| ·) es es = e :: es
    rw [Nat.or_self, ih]

theorem zipWith_or_set (l : List Nat) (c x : Nat) :
    List.zipWith (· ||| ·) l (l.set c x) = l.set c (l.getD c 0 ||| x) := by
  induction l generalizing c with
  | nil => rfl
  | cons d ds ih =>
    cases c with
    | zero =>
      show (d ||| x) :: List.zipWith (· ||| ·) ds ds = (d ||| x) :: ds
      rw [zipWith_or_self]
    | succ c =>
      show (d ||| d) :: List.zipWith (· ||| ·) ds (ds.set c x)
          = d :: ds.set c (ds.getD c 0 ||| x)
      rw [Nat.or_self, ih c]

theorem zipWith_map_same (f : Nat → Nat → Nat) (g h : Nat × Nat → Nat)
    (l : List (Nat × Nat)) :
    List.zipWith f (l.map g) (l.map h) = l.map fun x => f (g x) (h x) := by
  induction l with
  | nil => rfl
  | cons a t ih => simp [ih]

theorem sum_eq_sum_getD (l : List Nat) :
    l.sum = ∑ c in Finset.range l.length, l.getD c 0 := by
  induction l with
  | nil => rfl
  | cons d ds ih =>
    rw [List.sum_cons, ih,
      show (d :: ds).length = ds.length + 1 from rfl, Finset.sum_range_succ']
    have hcongr : ∑ i in Finset.range ds.length, (d :: ds).getD (i + 1) 0
        = ∑ i in Finset.range ds.length, ds.getD i 0 :=
      Finset.sum_congr rfl fun i _ => rfl
    rw [hcongr]
    have hz : (d :: ds).getD 0 0 = d := rfl
    rw [hz]
    ring

/-! ### Population-count lemmas -/

theorem discCount_eq_sum (n : Nat) :
    discCount n = ∑ i in Finset.range 64, if n.testBit i then 1 else 0 := by
  unfold discCount
  rw [Finset.card_filter]

theorem discCount_head_sum (n s : Nat) (hs : s ≤ 64) (hn : n < 2 ^ s) :
    discCount n = ∑ i in Finset.range s, if n.testBit i then 1 else 0 := by
  rw [discCount_eq_sum, ← Finset.sum_range_add_sum_Ico _ hs]
  have htail : ∑ i in Finset.Ico s 64, (if n.testBit i then 1 else 0) = 0 := by
    apply Finset.sum_eq_zero
    intro i hi
    have hsi : s ≤ i := (Finset.mem_Ico.mp hi).1
    have hbit : n.testBit i = false :=
      Nat.testBit_lt_two_pow (lt_of_lt_of_le hn (Nat.pow_le_pow_right (by norm_num) hsi))
    rw [hbit]
    rfl
  omega

theorem discCount_le_of_lt (n s : Nat) (hn : n < 2 ^ s) : discCount n ≤ s := by
  rcases le_or_lt s 64 with hs | hs
  · rw [discCount_head_sum n s hs hn]
    calc ∑ i in Finset.range s, (if n.testBit i then 1 else 0)
        ≤ ∑ i in Finset.range s, 1 := by
          apply Finset.sum_le_sum
          intro i _
          split <;> omega
      _ = s := by simp
  · calc discCount n ≤ (Finset.range 64).card := Finset.card_filter_le _ _
      _ = 64 := Finset.card_range 64
      _ ≤ s := by omega

theorem discCount_add_mul (s a m : Nat) (hs : s ≤ 64) (ha : a < 2 ^ s)
    (hm : m < 2 ^ (64 - s)) :
    discCount (a + 2 ^ s * m) = discCount a + discCount m := by
  rw [discCount_eq_sum, ← Finset.sum_range_add_sum_Ico _ hs]
  have hhead : ∑ i in Finset.range s, (if (a + 2 ^ s * m).testBit i then 1 else 0)
      = ∑ i in Finset.range s, (if a.testBit i then 1 else 0) := by
    apply Finset.sum_congr rfl
    intro i hi
    rw [testBit_add_mul_two_pow s a m i ha, if_pos (Finset.mem_range.mp hi)]
  have htail : ∑ i in Finset.Ico s 64, (if (a + 2 ^ s * m).testBit i then 1 else 0)
      = ∑ i in Finset.range (64 - s), (if m.testBit i then 1 else 0) := by
    rw [Finset.sum_Ico_eq_sum_range]
    apply Finset.sum_congr rfl
    intro i _
    rw [testBit_add_mul_two_pow s a m (s + i) ha,
      if_neg (by omega : ¬ s + i < s)]
    have hidx : s + i - s = i := by omega
    rw [hidx]
  rw [hhead, htail, ← discCount_head_sum a s hs ha,
    ← discCount_head_sum m (64 - s) (by omega) hm]

theorem discCount_xor_complement (p h : Nat) (hh : h ≤ 64) (hp : p < 2 ^ h) :
    discCount (p ^^^ (2 ^ h - 1)) = h - discCount p := by
  have hones : (2 : Nat) ^ h - 1 < 2 ^ h := by
    have : (0 : Nat) < 2 ^ h := Nat.pos_pow_of_pos h (by norm_num)
    omega
  have hxlt : p ^^^ (2 ^ h - 1) < 2 ^ h := Nat.xor_lt_two_pow hp hones
  rw [discCount_head_sum _ h hh hxlt, discCount_head_sum p h hh hp]
  have hsum : ∑ i in Finset.range h, (if (p ^^^ (2 ^ h - 1)).testBit i then 1 else 0)
      + ∑ i in Finset.range h, (if p.testBit i then 1 else 0) = h := by
    rw [← Finset.sum_add_distrib]
    have hcongr : ∀ i ∈ Finset.range h,
        ((if (p ^^^ (2 ^ h - 1)).testBit i then 1 else 0)
          + (if p.testBit i then 1 else 0) : Nat) = 1 := by
      intro i hi
      have hbit : (p ^^^ (2 ^ h - 1)).testBit i = !(p.testBit i) := by
        rw [Nat.testBit_xor, Nat.testBit_two_pow_sub_one,
          decide_eq_true (Finset.mem_range.mp hi)]
        cases p.testBit i <;> rfl
      rw [hbit]
      cases p.testBit i <;> simp
    rw [Finset.sum_congr rfl hcongr]
    simp
  omega

theorem discCount_encode (l : List Nat) (hlen : l.length ≤ 7)
    (hd : ∀ d ∈ l, d < 128) :
    discCount (encode l) = (l.map discCount).sum := by
  induction l with
  | nil =>
    show discCount 0 = 0
    unfold discCount
    have hfe : (Finset.range 64).filter (fun i => (0 : Nat).testBit i) = ∅ := by
      apply Finset.filter_false_of_mem
      intro i _
      simp [Nat.zero_testBit]
    rw [hfe]
    rfl
  | cons d ds ih =>
    have h1 : d < 2 ^ 7 := by
      have := hd d (List.mem_cons_self d ds)
      norm_num
      omega
    have hlen2 : ds.length ≤ 6 := by simpa using hlen
    have h2 : encode ds < 2 ^ (64 - 7) := by
      have henc : encode ds < 128 ^ ds.length :=
        encode_lt ds fun x hx => hd x (List.mem_cons_of_mem d hx)
      calc encode ds < 128 ^ ds.length := henc
        _ ≤ 128 ^ 6 := Nat.pow_le_pow_right (by norm_num) hlen2
        _ ≤ 2 ^ (64 - 7) := by norm_num
    rw [encode_cons, discCount_add_mul 7 d (encode ds) (by norm_num) h1 h2,
      ih (by omega) (fun x hx => hd x (List.mem_cons_of_mem d hx))]
    rfl

/-! ### The reachable-board invariant -/

theorem sum_map_le (l : List (Nat × Nat)) (f g : Nat × Nat → Nat)
    (h : ∀ x ∈ l, g x ≤ f x) : (l.map g).sum ≤ (l.map f).sum := by
  induction l with
  | nil => simp
  | cons a t ih =>
    simp only [List.map_cons, List.sum_cons]
    have h1 := h a (List.mem_cons_self a t)
    have h2 := ih fun x hx => h x (List.mem_cons_of_mem a hx)
    omega

theorem sum_map_sub (l : List (Nat × Nat)) (f g : Nat × Nat → Nat)
    (h : ∀ x ∈ l, g x ≤ f x) :
    (l.map fun x => f x - g x).sum = (l.map f).sum - (l.map g).sum := by
  induction l with
  | nil => simp
  | cons a t ih =>
    simp only [List.map_cons, List.sum_cons]
    have h1 := h a (List.mem_cons_self a t)
    have h2 := ih fun x hx => h x (List.mem_cons_of_mem a hx)
    have h3 := sum_map_le t f g fun x hx => h x (List.mem_cons_of_mem a hx)
    omega

theorem sum_le_of_forall (l : List Nat) (k : Nat) (h : ∀ d ∈ l, d ≤ k) :
    l.sum ≤ k * l.length := by
  induction l with
  | nil => simp
  | cons a t ih =>
    simp only [List.sum_cons, List.length_cons]
    have h1 := h a (List.mem_cons_self a t)
    have h2 := ih fun x hx => h x (List.mem_cons_of_mem a hx)
    have h3 : k * (t.length + 1) = k * t.length + k := by ring
    omega

/-- The structural invariant of boards reachable by legal play: each column
`c` is a stack of `h c ≤ 6` discs of which `p c < 2 ^ h c` (as a bitmask of
the low `h c` cells) belong to the player to move; `mask` and `position` are
the base-128 encodings of those columns, `moves` is the total number of discs
and the player to move owns `moves / 2` of them. -/
def Stacked (b : Board) : Prop :=
  ∃ cols : List (Nat × Nat),
    cols.length = 7 ∧
    (∀ x ∈ cols, x.1 ≤ 6 ∧ x.2 < 2 ^ x.1) ∧
    b.mask = encode (cols.map fun x => 2 ^ x.1 - 1) ∧
    b.position = encode (cols.map fun x => x.2) ∧
    b.moves = (cols.map fun x => x.1).sum ∧
    (cols.map fun x => discCount x.2).sum = b.moves / 2

theorem fields_lt (cols : List (Nat × Nat))
    (hx : ∀ x ∈ cols, x.1 ≤ 6 ∧ x.2 < 2 ^ x.1) :
    ∀ d ∈ cols.map fun x => 2 ^ x.1 - 1, d < 128 := by
  intro d hd
  rcases List.mem_map.mp hd with ⟨x, hx2, rfl⟩
  have h1 := (hx x hx2).1
  have h2 : (2 : Nat) ^ x.1 ≤ 2 ^ 6 := Nat.pow_le_pow_right (by norm_num) h1
  omega

theorem snds_lt (cols : List (Nat × Nat))
    (hx : ∀ x ∈ cols, x.1 ≤ 6 ∧ x.2 < 2 ^ x.1) :
    ∀ d ∈ cols.map fun x => x.2, d < 128 := by
  intro d hd
  rcases List.mem_map.mp hd with ⟨x, hx2, rfl⟩
  have h1 := (hx x hx2).1
  have h2 := (hx x hx2).2
  have h3 : (2 : Nat) ^ x.1 ≤ 2 ^ 6 := Nat.pow_le_pow_right (by norm_num) h1
  omega

theorem can_play_bit (b : Board) (col : Nat) :
    b.can_play col = true ↔ b.mask.testBit (7 * col + 5) = false := by
  have hidx : col * (HEIGHT + 1) + HEIGHT - 1 = 7 * col + 5 := by
    simp [HEIGHT]
    ring
  rw [Board.can_play, beq_iff_eq, hidx, Nat.one_shiftLeft]
  exact and_two_pow_eq_zero_iff b.mask (7 * col + 5)

theorem can_play_iff_height (b : Board) (cols : List (Nat × Nat))
    (hlen : cols.length = 7)
    (hx : ∀ x ∈ cols, x.1 ≤ 6 ∧ x.2 < 2 ^ x.1)
    (hmask : b.mask = encode (cols.map fun x => 2 ^ x.1 - 1))
    (col : Nat) (hcol : col < 7) :
    (b.can_play col = true ↔ (cols.getD col (0, 0)).1 < 6) := by
  rw [can_play_bit, hmask,
    encode_testBit _ (fields_lt cols hx) col 5 (by norm_num)]
  have hmap : (cols.map fun x => 2 ^ x.1 - 1).getD col 0
      = 2 ^ (cols.getD col (0, 0)).1 - 1 :=
    getD_map_of_lt _ cols col (by omega)
  rw [hmap, Nat.testBit_two_pow_sub_one]
  have hh6 := (hx _ (getD_mem_of_lt cols col (by omega))).1
  constructor
  · intro h
    have : ¬ (5 < (cols.getD col (0, 0)).1) := by
      intro hc
      rw [decide_eq_true hc] at h
      exact Bool.true_eq_false.mp h
    omega
  · intro h
    have : ¬ (5 < (cols.getD col (0, 0)).1) := by omega
    simpa [this]

theorem shift_play_col (col : Nat) :
    (1 : Nat) <<< (col * (HEIGHT + 1)) = 2 ^ (7 * col) := by
  rw [Nat.one_shiftLeft]
  congr 1
  simp [HEIGHT]
  ring

theorem play_mask_eq (b : Board) (cols : List (Nat × Nat)) (col : Nat)
    (hlen : cols.length = 7)
    (hx : ∀ x ∈ cols, x.1 ≤ 6 ∧ x.2 < 2 ^ x.1)
    (hmask : b.mask = encode (cols.map fun x => 2 ^ x.1 - 1))
    (hcol : col < 7) (hcp : b.can_play col = true) :
    (b.play col).mask
      = encode ((cols.map fun x => 2 ^ x.1 - 1).set col
          (2 ^ ((cols.getD col (0, 0)).1 + 1) - 1)) := by
  have hh5 : (cols.getD col (0, 0)).1 < 6 :=
    (can_play_iff_height b cols hlen hx hmask col hcol).mp hcp
  have hlenf : (cols.map fun x => 2 ^ x.1 - 1).length = 7 := by
    rw [List.length_map, hlen]
  have hgdf : (cols.map fun x => 2 ^ x.1 - 1).getD col 0
      = 2 ^ (cols.getD col (0, 0)).1 - 1 :=
    getD_map_of_lt _ cols col (by omega)
  have hpowpos : (0 : Nat) < 2 ^ (cols.getD col (0, 0)).1 :=
    Nat.pos_pow_of_pos _ (by norm_num)
  have hadd : b.mask + 1 <<< (col * (HEIGHT + 1))
      = encode ((cols.map fun x => 2 ^ x.1 - 1).set col
          (2 ^ (cols.getD col (0, 0)).1)) := by
    rw [shift_play_col, hmask]
    have hset := encode_set_add (cols.map fun x => 2 ^ x.1 - 1) col 1 (by omega)
    rw [hgdf] at hset
    have hval : 2 ^ (cols.getD col (0, 0)).1 - 1 + 1
        = 2 ^ (cols.getD col (0, 0)).1 := by omega
    rw [hval] at hset
    rw [hset, Nat.mul_one]
  have hnewlt : ∀ d ∈ (cols.map fun x => 2 ^ x.1 - 1).set col
      (2 ^ (cols.getD col (0, 0)).1), d < 128 := by
    intro d hd
    rcases List.mem_or_eq_of_mem_set hd with hmem | rfl
    · exact fields_lt cols hx d hmem
    · have h2 : (2 : Nat) ^ (cols.getD col (0, 0)).1 ≤ 2 ^ 6 :=
        Nat.pow_le_pow_right (by norm_num) (by omega)
      omega
  have hmod : encode ((cols.map fun x => 2 ^ x.1 - 1).set col
      (2 ^ (cols.getD col (0, 0)).1)) % 2 ^ 64
      = encode ((cols.map fun x => 2 ^ x.1 - 1).set col
      (2 ^ (cols.getD col (0, 0)).1)) := by
    apply Nat.mod_eq_of_lt
    have henc := encode_lt _ hnewlt
    rw [List.length_set, hlenf] at henc
    calc encode _ < 128 ^ 7 := henc
      _ < 2 ^ 64 := by norm_num
  show b.mask ||| (b.mask + 1 <<< (col * (HEIGHT + 1))) % 2 ^ 64 = _
  rw [hadd, hmod, hmask]
  rw [← encode_or _ _ (by rw [List.length_set]) (fields_lt cols hx) hnewlt,
    zipWith_or_set, hgdf]
  have hor : 2 ^ (cols.getD col (0, 0)).1 - 1 ||| 2 ^ (cols.getD col (0, 0)).1
      = 2 ^ ((cols.getD col (0, 0)).1 + 1) - 1 := by
    have h1 : 2 ^ (cols.getD col (0, 0)).1 - 1 < 2 ^ (cols.getD col (0, 0)).1 := by
      omega
    have h2 := or_two_pow_mul_of_lt (cols.getD col (0, 0)).1
      (2 ^ (cols.getD col (0, 0)).1 - 1) 1 h1
    rw [Nat.mul_one] at h2
    rw [h2, pow_succ]
    omega
  rw [hor]

theorem play_position_eq (b : Board) (cols : List (Nat × Nat))
    (hx : ∀ x ∈ cols, x.1 ≤ 6 ∧ x.2 < 2 ^ x.1)
    (hmask : b.mask = encode (cols.map fun x => 2 ^ x.1 - 1))
    (hpos : b.position = encode (cols.map fun x => x.2)) (col : Nat) :
    (b.play col).position = encode (cols.map fun x => x.2 ^^^ (2 ^ x.1 - 1)) := by
  show b.position ^^^ b.mask = _
  rw [hpos, hmask,
    ← encode_xor _ _ (by rw [List.length_map, List.length_map])
      (snds_lt cols hx) (fields_lt cols hx),
    zipWith_map_same]

theorem Stacked_play (b : Board) (col : Nat) (hcol : col < 7)
    (hcp : b.can_play col = true) (hb : Stacked b) : Stacked (b.play col) := by
  rcases hb with ⟨cols, hlen, hx, hmask, hpos, hmv, hbits⟩
  set h0 := (cols.getD col (0, 0)).1 with hh0
  set p0 := (cols.getD col (0, 0)).2 with hp0
  have hh5 : h0 < 6 := (can_play_iff_height b cols hlen hx hmask col hcol).mp hcp
  have hmem0 := hx _ (getD_mem_of_lt cols col (by omega))
  refine ⟨(cols.map fun x => (x.1, x.2 ^^^ (2 ^ x.1 - 1))).set col
    (h0 + 1, p0 ^^^ (2 ^ h0 - 1)), ?_, ?_, ?_, ?_, ?_, ?_⟩
  · rw [List.length_set, List.length_map, hlen]
  · intro x hxm
    rcases List.mem_or_eq_of_mem_set hxm with hmem | rfl
    · rcases List.mem_map.mp hmem with ⟨y, hy, rfl⟩
      refine ⟨(hx y hy).1, ?_⟩
      have h1 : (2 : Nat) ^ y.1 - 1 < 2 ^ y.1 := by
        have := Nat.pos_pow_of_pos y.1 (by norm_num : (0:Nat) < 2)
        omega
      exact Nat.xor_lt_two_pow (hx y hy).2 h1
    · refine ⟨by omega, ?_⟩
      have h1 : (2 : Nat) ^ h0 - 1 < 2 ^ h0 := by
        have := Nat.pos_pow_of_pos h0 (by norm_num : (0:Nat) < 2)
        omega
      have h2 : p0 ^^^ (2 ^ h0 - 1) < 2 ^ h0 := Nat.xor_lt_two_pow hmem0.2 h1
      calc p0 ^^^ (2 ^ h0 - 1) < 2 ^ h0 := h2
        _ ≤ 2 ^ (h0 + 1) := Nat.pow_le_pow_right (by norm_num) (by omega)
  · rw [play_mask_eq b cols col hlen hx hmask hcol hcp]
    congr 1
    rw [List.map_set, List.map_map]
    rfl
  · rw [play_position_eq b cols hx hmask hpos col]
    rw [List.map_set, List.map_map]
    have hcomp : ((fun x : Nat × Nat => x.2) ∘ fun x : Nat × Nat =>
        (x.1, x.2 ^^^ (2 ^ x.1 - 1))) = fun x : Nat × Nat => x.2 ^^^ (2 ^ x.1 - 1) :=
      rfl
    rw [hcomp]
    have hgd : (cols.map fun x : Nat × Nat => x.2 ^^^ (2 ^ x.1 - 1)).getD col 0
        = p0 ^^^ (2 ^ h0 - 1) :=
      getD_map_of_lt _ cols col (by omega)
    rw [← hgd, set_getD_self _ col (by rw [List.length_map]; omega)]
  · show (b.moves + 1) % 2 ^ 32 = _
    rw [List.map_set, List.map_map]
    have hcomp : ((fun x : Nat × Nat => x.1) ∘ fun x : Nat × Nat =>
        (x.1, x.2 ^^^ (2 ^ x.1 - 1))) = fun x : Nat × Nat => x.1 := rfl
    rw [hcomp]
    have hgd : (cols.map fun x : Nat × Nat => x.1).getD col 0 = h0 :=
      getD_map_of_lt _ cols col (by omega)
    have hset := sum_set_add (cols.map fun x : Nat × Nat => x.1) col 1
      (by rw [List.length_map]; omega)
    rw [hgd] at hset
    show (b.moves + 1) % 2 ^ 32
        = ((cols.map fun x : Nat × Nat => x.1).set col (h0 + 1)).sum
    rw [hset, ← hmv]
    have hle : (cols.map fun x : Nat × Nat => x.1).sum ≤ 42 := by
      have := sum_le_of_forall (cols.map fun x : Nat × Nat => x.1) 6 ?side
      · rw [List.length_map, hlen] at this
        omega
      case side =>
        intro d hd
        rcases List.mem_map.mp hd with ⟨y, hy, rfl⟩
        exact (hx y hy).1
    apply Nat.mod_eq_of_lt
    omega
  · rw [List.map_set, List.map_map]
    have hcomp : ((fun x : Nat × Nat => discCount x.2) ∘ fun x : Nat × Nat =>
        (x.1, x.2 ^^^ (2 ^ x.1 - 1)))
        = fun x : Nat × Nat => discCount (x.2 ^^^ (2 ^ x.1 - 1)) := rfl
    rw [hcomp]
    have hgd : (cols.map fun x : Nat × Nat =>
        discCount (x.2 ^^^ (2 ^ x.1 - 1))).getD col 0
        = discCount (p0 ^^^ (2 ^ h0 - 1)) :=
      getD_map_of_lt _ cols col (by omega)
    rw [← hgd, set_getD_self _ col (by rw [List.length_map]; omega)]
    have hmapc : (cols.map fun x : Nat × Nat => discCount (x.2 ^^^ (2 ^ x.1 - 1)))
        = cols.map fun x : Nat × Nat => x.1 - discCount x.2 := by
      apply List.map_congr_left
      intro x hxm
      exact discCount_xor_complement x.2 x.1 (by have := (hx x hxm).1; omega)
        (hx x hxm).2
    rw [hmapc]
    have hsub := sum_map_sub cols (fun x => x.1) (fun x => discCount x.2)
      (fun x hxm => discCount_le_of_lt x.2 x.1 (hx x hxm).2)
    rw [hsub]
    have hle := sum_map_le cols (fun x => x.1) (fun x => discCount x.2)
      (fun x hxm => discCount_le_of_lt x.2 x.1 (hx x hxm).2)
    have hmv2 : (b.play col).moves = b.moves + 1 := by
      show (b.moves + 1) % 2 ^ 32 = b.moves + 1
      have hle42 : (cols.map fun x : Nat × Nat => x.1).sum ≤ 42 := by
        have := sum_le_of_forall (cols.map fun x : Nat × Nat => x.1) 6 ?side2
        · rw [List.length_map, hlen] at this
          omega
        case side2 =>
          intro d hd
          rcases List.mem_map.mp hd with ⟨y, hy, rfl⟩
          exact (hx y hy).1
      apply Nat.mod_eq_of_lt
      omega
    rw [hmv2]
    omega

theorem reachable_stacked (b : Board) (hb : Reachable b) : Stacked b := by
  induction hb with
  | base =>
    refine ⟨List.replicate 7 (0, 0), ?_, ?_, ?_, ?_, ?_, ?_⟩
    · rfl
    · intro x hx
      have := List.eq_of_mem_replicate hx
      subst this
      exact ⟨by norm_num, by norm_num⟩
    · rfl
    · rfl
    · rfl
    · rfl
  | step b col hr hcol hcp ih => exact Stacked_play b col hcol hcp ih

theorem stacked_mask_lt (b : Board) (hb : Stacked b) : b.mask < 2 ^ 49 := by
  rcases hb with ⟨cols, hlen, hx, hmask, _, _, _⟩
  rw [hmask]
  have henc := encode_lt _ (fields_lt cols hx)
  rw [List.length_map, hlen] at henc
  calc encode _ < 128 ^ 7 := henc
    _ ≤ 2 ^ 49 := by norm_num

theorem stacked_position_lt (b : Board) (hb : Stacked b) : b.position < 2 ^ 49 := by
  rcases hb with ⟨cols, hlen, hx, _, hpos, _, _⟩
  rw [hpos]
  have henc := encode_lt _ (snds_lt cols hx)
  rw [List.length_map, hlen] at henc
  calc encode _ < 128 ^ 7 := henc
    _ ≤ 2 ^ 49 := by norm_num

theorem stacked_moves_le (b : Board) (hb : Stacked b) : b.moves ≤ 42 := by
  rcases hb with ⟨cols, hlen, hx, _, _, hmv, _⟩
  rw [hmv]
  have := sum_le_of_forall (cols.map fun x : Nat × Nat => x.1) 6 ?side
  · rw [List.length_map, hlen] at this
    omega
  case side =>
    intro d hd
    rcases List.mem_map.mp hd with ⟨y, hy, rfl⟩
    exact (hx y hy).1

theorem stacked_subset (b : Board) (hb : Stacked b) :
    b.position &&& b.mask = b.position := by
  rcases hb with ⟨cols, hlen, hx, hmask, hpos, _, _⟩
  apply Nat.eq_of_testBit_eq
  intro i
  rw [Nat.testBit_and]
  have hi : 7 * (i / 7) + i % 7 = i := Nat.div_add_mod i 7
  rcases hbp : b.position.testBit i with _ | _
  · simp
  · have hbm : b.mask.testBit i = true := by
      rw [hpos, ← hi, encode_testBit _ (snds_lt cols hx) (i / 7) (i % 7)
        (Nat.mod_lt i (by norm_num))] at hbp
      rw [hmask, ← hi, encode_testBit _ (fields_lt cols hx) (i / 7) (i % 7)
        (Nat.mod_lt i (by norm_num))]
      have hgds : (cols.map fun x : Nat × Nat => x.2).getD (i / 7) 0
          = (cols.getD (i / 7) (0, 0)).2 := by
        rcases lt_or_le (i / 7) cols.length with hc | hc
        · exact getD_map_of_lt _ cols (i / 7) hc
        · rw [List.getD_eq_default, List.getD_eq_default] <;>
            simp [List.length_map, hc]
      have hgdf : (cols.map fun x : Nat × Nat => 2 ^ x.1 - 1).getD (i / 7) 0
          = 2 ^ (cols.getD (i / 7) (0, 0)).1 - 1 := by
        rcases lt_or_le (i / 7) cols.length with hc | hc
        · exact getD_map_of_lt _ cols (i / 7) hc
        · rw [List.getD_eq_default _ _ (by simpa using hc),
            List.getD_eq_default _ _ hc]
          norm_num
      rw [hgds] at hbp
      rw [hgdf, Nat.testBit_two_pow_sub_one]
      refine decide_eq_true ?_
      have hp2 : (cols.getD (i / 7) (0, 0)).2 < 2 ^ (cols.getD (i / 7) (0, 0)).1 := by
        rcases lt_or_le (i / 7) cols.length with hc | hc
        · exact (hx _ (getD_mem_of_lt cols (i / 7) hc)).2
        · rw [List.getD_eq_default]
          · norm_num
          · exact hc
      have hrh : i % 7 < (cols.getD (i / 7) (0, 0)).1 := by
        by_contra hcon
        push_neg at hcon
        have : (cols.getD (i / 7) (0, 0)).2 < 2 ^ (i % 7) :=
          lt_of_lt_of_le hp2 (Nat.pow_le_pow_right (by norm_num) hcon)
        rw [Nat.testBit_lt_two_pow this] at hbp
        exact Bool.false_ne_true hbp
      exact hrh
    rw [hbm]
    simp

theorem land_xor_self (x y : Nat) (h : x &&& y = x) :
    (x ^^^ y) &&& y = x ^^^ y := by
  apply Nat.eq_of_testBit_eq
  intro i
  have hbit := congrArg (fun n => n.testBit i) h
  simp only [Nat.testBit_and] at hbit
  rw [Nat.testBit_and, Nat.testBit_xor]
  cases hx : x.testBit i <;> cases hy : y.testBit i <;> simp_all

theorem land_or_right (a y w : Nat) (h : a &&& y = a) : a &&& (y ||| w) = a := by
  apply Nat.eq_of_testBit_eq
  intro i
  have hbit := congrArg (fun n => n.testBit i) h
  simp only [Nat.testBit_and] at hbit
  rw [Nat.testBit_and, Nat.testBit_or]
  cases hx : a.testBit i <;> cases hy : y.testBit i <;> simp_all

theorem specColDiscs_eq_height (b : Board) (cols : List (Nat × Nat))
    (hlen : cols.length = 7)
    (hx : ∀ x ∈ cols, x.1 ≤ 6 ∧ x.2 < 2 ^ x.1)
    (hmask : b.mask = encode (cols.map fun x => 2 ^ x.1 - 1))
    (col : Nat) (hcol : col < 7) :
    specColDiscs b col = (cols.getD col (0, 0)).1 := by
  unfold specColDiscs
  have hh6 := (hx _ (getD_mem_of_lt cols col (by omega))).1
  have hfe : (Finset.range 6).filter (fun r => b.mask.testBit (col * 7 + r))
      = (Finset.range 6).filter (fun r => r < (cols.getD col (0, 0)).1) := by
    apply Finset.filter_congr
    intro r hr
    have hr6 : r < 6 := Finset.mem_range.mp hr
    have hidx : col * 7 + r = 7 * col + r := by ring
    rw [hidx, hmask, encode_testBit _ (fields_lt cols hx) col r (by omega),
      getD_map_of_lt _ cols col (by omega), Nat.testBit_two_pow_sub_one]
    simp
  rw [hfe]
  have hfr : (Finset.range 6).filter (fun r => r < (cols.getD col (0, 0)).1)
      = Finset.range (cols.getD col (0, 0)).1 := by
    apply Finset.ext
    intro r
    simp only [Finset.mem_filter, Finset.mem_range]
    omega
  rw [hfr, Finset.card_range]

/-- C3: on reachable boards, `can_play col` is false iff column `col` already
holds six discs; and playing a column holding fewer than six discs increments
`moves` by exactly one and keeps `position` a subset of `mask`. -/
theorem claim_C3 (b : Board) (hb : Reachable b) (col : Fin 7) :
    (b.can_play col = false ↔ specColDiscs b col = 6) ∧
    (specColDiscs b col < 6 →
      (b.play col).moves = b.moves + 1 ∧
      (b.play col).position &&& (b.play col).mask = (b.play col).position) := by
  have hst := reachable_stacked b hb
  have hmle := stacked_moves_le b hst
  have hsub := stacked_subset b hst
  rcases hst with ⟨cols, hlen, hx, hmask, hpos, hmv, hbits⟩
  have hspec := specColDiscs_eq_height b cols hlen hx hmask col col.isLt
  have hcp := can_play_iff_height b cols hlen hx hmask col col.isLt
  have hh6 := (hx _ (getD_mem_of_lt cols col (by omega))).1
  constructor
  · rw [hspec]
    constructor
    · intro h
      have hnt : ¬ ((cols.getD (col : Nat) (0, 0)).1 < 6) := by
        intro hlt
        have hcontra := hcp.mpr hlt
        rw [h] at hcontra
        exact Bool.false_ne_true hcontra
      omega
    · intro h
      by_contra hne
      have htrue : b.can_play (col : Nat) = true := by
        cases hcpv : b.can_play (col : Nat)
        · exact absurd hcpv hne
        · rfl
      have hlt := hcp.mp htrue
      omega
  · intro h
    rw [hspec] at h
    constructor
    · show (b.moves + 1) % 2 ^ 32 = b.moves + 1
      apply Nat.mod_eq_of_lt
      omega
    · show (b.position ^^^ b.mask) &&& (b.play col).mask = b.position ^^^ b.mask
      have hmw : (b.play col).mask
          = b.mask ||| (b.mask + 1 <<< ((col : Nat) * (HEIGHT + 1))) % 2 ^ 64 := rfl
      rw [hmw]
      exact land_or_right _ _ _ (land_xor_self b.position b.mask hsub)

/-- C3 witness at the empty board and column 0. -/
theorem claim_C3_witness :
    (Board.new.can_play 0 = false ↔ specColDiscs Board.new 0 = 6) ∧
    (specColDiscs Board.new 0 < 6 →
      (Board.new.play 0).moves = Board.new.moves + 1 ∧
      (Board.new.play 0).position &&& (Board.new.play 0).mask
        = (Board.new.play 0).position) :=
  claim_C3 Board.new Reachable.base 0

/-! ### Claim C4: injectivity of the position key -/

theorem col_digit_inj_le (h1 p1 h2 p2 : Nat) (hle : h1 ≤ h2)
    (hp1 : p1 < 2 ^ h1) (hp2 : p2 < 2 ^ h2)
    (heq : p1 + (2 ^ h1 - 1) = p2 + (2 ^ h2 - 1)) : h1 = h2 ∧ p1 = p2 := by
  have hpos1 : (0 : Nat) < 2 ^ h1 := Nat.pos_pow_of_pos _ (by norm_num)
  have hpos2 : (0 : Nat) < 2 ^ h2 := Nat.pos_pow_of_pos _ (by norm_num)
  have heq2 : p1 + 2 ^ h1 = p2 + 2 ^ h2 := by omega
  have hlt : 2 ^ h2 < 2 ^ (h1 + 1) := by
    have hstep : (2 : Nat) ^ (h1 + 1) = 2 ^ h1 + 2 ^ h1 := by
      rw [pow_succ]
      ring
    omega
  have hh : h2 < h1 + 1 := by
    by_contra hcon
    push_neg at hcon
    have := Nat.pow_le_pow_right (by norm_num : 1 ≤ 2) hcon
    omega
  have hh12 : h1 = h2 := by omega
  subst hh12
  exact ⟨rfl, by omega⟩

theorem col_digit_inj (h1 p1 h2 p2 : Nat)
    (hp1 : p1 < 2 ^ h1) (hp2 : p2 < 2 ^ h2)
    (heq : p1 + (2 ^ h1 - 1) = p2 + (2 ^ h2 - 1)) : h1 = h2 ∧ p1 = p2 := by
  rcases le_total h1 h2 with hle | hle
  · exact col_digit_inj_le h1 p1 h2 p2 hle hp1 hp2 heq
  · have := col_digit_inj_le h2 p2 h1 p1 hle hp2 hp1 heq.symm
    exact ⟨this.1.symm, this.2.symm⟩

theorem keydigits_lt (cols : List (Nat × Nat))
    (hx : ∀ x ∈ cols, x.1 ≤ 6 ∧ x.2 < 2 ^ x.1) :
    ∀ d ∈ cols.map fun x => x.2 + (2 ^ x.1 - 1), d < 128 := by
  intro d hd
  rcases List.mem_map.mp hd with ⟨x, hx2, rfl⟩
  have h1 := (hx x hx2).1
  have h2 := (hx x hx2).2
  have h3 : (2 : Nat) ^ x.1 ≤ 2 ^ 6 := Nat.pow_le_pow_right (by norm_num) h1
  omega

theorem key_eq_encode (b : Board) (cols : List (Nat × Nat))
    (hlen : cols.length = 7)
    (hx : ∀ x ∈ cols, x.1 ≤ 6 ∧ x.2 < 2 ^ x.1)
    (hmask : b.mask = encode (cols.map fun x => 2 ^ x.1 - 1))
    (hpos : b.position = encode (cols.map fun x => x.2)) :
    b.key = encode (cols.map fun x => x.2 + (2 ^ x.1 - 1)) := by
  unfold Board.key
  rw [hpos, hmask,
    ← encode_add _ _ (by rw [List.length_map, List.length_map]),
    zipWith_map_same]
  apply Nat.mod_eq_of_lt
  have henc := encode_lt _ (keydigits_lt cols hx)
  rw [List.length_map, hlen] at henc
  calc encode _ < 128 ^ 7 := henc
    _ < 2 ^ 64 := by norm_num

theorem encode_eq_of_getD (l1 l2 : List Nat) (hlen : l1.length = l2.length)
    (h : ∀ c, l1.getD c 0 = l2.getD c 0) : encode l1 = encode l2 := by
  induction l1 generalizing l2 with
  | nil =>
    cases l2 with
    | nil => rfl
    | cons b bs => simp at hlen
  | cons a as ih =>
    cases l2 with
    | nil => simp at hlen
    | cons b bs =>
      have hab : a = b := h 0
      have htail : encode as = encode bs :=
        ih bs (by simpa using hlen) fun c => h (c + 1)
      show a + 128 * encode as = b + 128 * encode bs
      rw [hab, htail]

theorem encode_digit_eq (l1 l2 : List Nat)
    (h1 : ∀ d ∈ l1, d < 128) (h2 : ∀ d ∈ l2, d < 128)
    (heq : encode l1 = encode l2) (c : Nat) : l1.getD c 0 = l2.getD c 0 := by
  rw [← encode_digit l1 h1 c, ← encode_digit l2 h2 c, heq]

/-- C4: on reachable boards, `key() = position + mask` is injective — two
reachable boards have equal keys iff they agree on `position`, `mask` and
`moves` (equivalently: identical cell contents and the same player to move;
`moves`, hence the ply parity, is determined by `mask`). -/
theorem claim_C4 (b1 b2 : Board) (hr1 : Reachable b1) (hr2 : Reachable b2) :
    b1.key = b2.key ↔
      (b1.position = b2.position ∧ b1.mask = b2.mask ∧ b1.moves = b2.moves) := by
  constructor
  · intro hkey
    rcases reachable_stacked b1 hr1 with ⟨c1, hlen1, hx1, hmask1, hpos1, hmv1, _⟩
    rcases reachable_stacked b2 hr2 with ⟨c2, hlen2, hx2, hmask2, hpos2, hmv2, _⟩
    rw [key_eq_encode b1 c1 hlen1 hx1 hmask1 hpos1,
      key_eq_encode b2 c2 hlen2 hx2 hmask2 hpos2] at hkey
    have hdig := encode_digit_eq _ _ (keydigits_lt c1 hx1) (keydigits_lt c2 hx2) hkey
    have hcols : ∀ c, c < 7 →
        (c1.getD c (0, 0)).1 = (c2.getD c (0, 0)).1 ∧
        (c1.getD c (0, 0)).2 = (c2.getD c (0, 0)).2 := by
      intro c hc
      have hd := hdig c
      rw [getD_map_of_lt _ c1 c (by omega), getD_map_of_lt _ c2 c (by omega)] at hd
      have hm1 := hx1 _ (getD_mem_of_lt c1 c (by omega))
      have hm2 := hx2 _ (getD_mem_of_lt c2 c (by omega))
      have := col_digit_inj _ _ _ _ hm1.2 hm2.2 hd
      exact ⟨this.1, this.2⟩
    refine ⟨?_, ?_, ?_⟩
    · rw [hpos1, hpos2]
      apply encode_eq_of_getD _ _ (by rw [List.length_map, List.length_map, hlen1, hlen2])
      intro c
      rcases lt_or_le c 7 with hc | hc
      · rw [getD_map_of_lt _ c1 c (by omega), getD_map_of_lt _ c2 c (by omega)]
        exact (hcols c hc).2
      · rw [List.getD_eq_default _ _ (by simp [hlen1]; omega),
          List.getD_eq_default _ _ (by simp [hlen2]; omega)]
    · rw [hmask1, hmask2]
      apply encode_eq_of_getD _ _ (by rw [List.length_map, List.length_map, hlen1, hlen2])
      intro c
      rcases lt_or_le c 7 with hc | hc
      · rw [getD_map_of_lt _ c1 c (by omega), getD_map_of_lt _ c2 c (by omega),
          (hcols c hc).1]
      · rw [List.getD_eq_default _ _ (by simp [hlen1]; omega),
          List.getD_eq_default _ _ (by simp [hlen2]; omega)]
    · rw [hmv1, hmv2, sum_eq_sum_getD, sum_eq_sum_getD,
        List.length_map, List.length_map, hlen1, hlen2]
      apply Finset.sum_congr rfl
      intro c hc
      have hc7 : c < 7 := Finset.mem_range.mp hc
      rw [getD_map_of_lt _ c1 c (by omega), getD_map_of_lt _ c2 c (by omega)]
      exact (hcols c hc7).1
  · intro h
    unfold Board.key
    rw [h.1, h.2.1]

/-- C4 witness: the empty board and the board after one move have different
keys, via the injectivity theorem. -/
theorem claim_C4_witness :
    (Board.new.play 3).key = Board.new.key ↔
      ((Board.new.play 3).position = Board.new.position ∧
        (Board.new.play 3).mask = Board.new.mask ∧
        (Board.new.play 3).moves = Board.new.moves) :=
  claim_C4 (Board.new.play 3) Board.new
    (Reachable.step Board.new 3 Reachable.base (by norm_num) (by decide))
    Reachable.base

/-! ### Claim C10: no win is detectable within the first six moves -/

theorem xords_lt (cols : List (Nat × Nat))
    (hx : ∀ x ∈ cols, x.1 ≤ 6 ∧ x.2 < 2 ^ x.1) :
    ∀ d ∈ cols.map fun x => x.2 ^^^ (2 ^ x.1 - 1), d < 128 := by
  intro d hd
  rcases List.mem_map.mp hd with ⟨x, hx2, rfl⟩
  have h1 := (hx x hx2).1
  have h2 := (hx x hx2).2
  have h3 : (2 : Nat) ^ x.1 - 1 < 2 ^ x.1 := by
    have := Nat.pos_pow_of_pos x.1 (by norm_num : (0:Nat) < 2)
    omega
  have h4 : x.2 ^^^ (2 ^ x.1 - 1) < 2 ^ x.1 := Nat.xor_lt_two_pow h2 h3
  have h5 : (2 : Nat) ^ x.1 ≤ 2 ^ 6 := Nat.pow_le_pow_right (by norm_num) h1
  omega

theorem discCount_mover (b : Board) (hst : Stacked b) :
    discCount (b.position ^^^ b.mask) = b.moves - b.moves / 2 := by
  rcases hst with ⟨cols, hlen, hx, hmask, hpos, hmv, hbits⟩
  have hxm : b.position ^^^ b.mask
      = encode (cols.map fun x => x.2 ^^^ (2 ^ x.1 - 1)) :=
    play_position_eq b cols hx hmask hpos 0
  rw [hxm, discCount_encode _ (by rw [List.length_map, hlen]) (xords_lt cols hx),
    List.map_map]
  have hcomp : (discCount ∘ fun x : Nat × Nat => x.2 ^^^ (2 ^ x.1 - 1))
      = fun x : Nat × Nat => discCount (x.2 ^^^ (2 ^ x.1 - 1)) := rfl
  rw [hcomp]
  have hmapc : (cols.map fun x : Nat × Nat => discCount (x.2 ^^^ (2 ^ x.1 - 1)))
      = cols.map fun x : Nat × Nat => x.1 - discCount x.2 := by
    apply List.map_congr_left
    intro x hxm2
    exact discCount_xor_complement x.2 x.1 (by have := (hx x hxm2).1; omega)
      (hx x hxm2).2
  rw [hmapc, sum_map_sub cols (fun x => x.1) (fun x => discCount x.2)
    (fun x hxm2 => discCount_le_of_lt x.2 x.1 (hx x hxm2).2), ← hmv, hbits]

theorem is_win_four_bits (b : Board) (hwin : b.is_win = true) :
    ∃ d, 1 ≤ d ∧ ∃ i,
      (b.position ^^^ b.mask).testBit i = true ∧
      (b.position ^^^ b.mask).testBit (i + d) = true ∧
      (b.position ^^^ b.mask).testBit (i + 2 * d) = true ∧
      (b.position ^^^ b.mask).testBit (i + 3 * d) = true := by
  unfold Board.is_win at hwin
  rcases List.any_eq_true.mp hwin with ⟨d, hmem, hpred⟩
  have hd1 : 1 ≤ d := by
    have : d = 1 ∨ d = 7 ∨ d = 8 ∨ d = 9 := by simpa using hmem
    omega
  refine ⟨d, hd1, ?_⟩
  set pos := b.position ^^^ b.mask with hposdef
  have hpred2 : ((pos &&& (pos >>> d)) &&& ((pos &&& (pos >>> d)) >>> (2 * d)) != 0)
      = true := hpred
  have hne : (pos &&& (pos >>> d)) &&& ((pos &&& (pos >>> d)) >>> (2 * d)) ≠ 0 := by
    intro hzero
    rw [hzero] at hpred2
    simp at hpred2
  rcases Nat.ne_zero_implies_bit_true hne with ⟨i, hbit⟩
  rw [Nat.testBit_and, Nat.testBit_shiftRight, Nat.testBit_and,
    Nat.testBit_and, Nat.testBit_shiftRight, Nat.testBit_shiftRight] at hbit
  refine ⟨i, ?_, ?_, ?_, ?_⟩
  · rcases Bool.and_eq_true_iff.mp hbit with ⟨h1, _⟩
    exact (Bool.and_eq_true_iff.mp h1).1
  · rcases Bool.and_eq_true_iff.mp hbit with ⟨h1, _⟩
    have := (Bool.and_eq_true_iff.mp h1).2
    rwa [Nat.add_comm d i] at this
  · rcases Bool.and_eq_true_iff.mp hbit with ⟨_, h2⟩
    have := (Bool.and_eq_true_iff.mp h2).1
    rwa [show 2 * d + i = i + 2 * d by ring] at this
  · rcases Bool.and_eq_true_iff.mp hbit with ⟨_, h2⟩
    have := (Bool.and_eq_true_iff.mp h2).2
    rwa [show d + (2 * d + i) = i + 3 * d by ring] at this

theorem four_bits_le_discCount (n i d : Nat) (hd : 1 ≤ d) (hn : n < 2 ^ 64)
    (h0 : n.testBit i = true) (h1 : n.testBit (i + d) = true)
    (h2 : n.testBit (i + 2 * d) = true) (h3 : n.testBit (i + 3 * d) = true) :
    4 ≤ discCount n := by
  have hlt : ∀ j, n.testBit j = true → j < 64 := by
    intro j hj
    by_contra hcon
    push_neg at hcon
    have : n < 2 ^ j :=
      lt_of_lt_of_le hn (Nat.pow_le_pow_right (by norm_num) hcon)
    rw [Nat.testBit_lt_two_pow this] at hj
    exact Bool.false_ne_true hj
  have hsub : ({i, i + d, i + 2 * d, i + 3 * d} : Finset Nat)
      ⊆ (Finset.range 64).filter (fun j => n.testBit j) := by
    intro x hxm
    simp only [Finset.mem_insert, Finset.mem_singleton] at hxm
    rcases hxm with rfl | rfl | rfl | rfl <;>
      · rw [Finset.mem_filter, Finset.mem_range]
        first
        | exact ⟨hlt _ h0, h0⟩
        | exact ⟨hlt _ h1, h1⟩
        | exact ⟨hlt _ h2, h2⟩
        | exact ⟨hlt _ h3, h3⟩
  have hcard : ({i, i + d, i + 2 * d, i + 3 * d} : Finset Nat).card = 4 := by
    have hc3 : i + 2 * d ∉ ({i + 3 * d} : Finset Nat) := by
      simp
      omega
    have hc2 : i + d ∉ insert (i + 2 * d) ({i + 3 * d} : Finset Nat) := by
      simp
      omega
    have hc1 : i ∉ insert (i + d) (insert (i + 2 * d) ({i + 3 * d} : Finset Nat)) := by
      simp
      omega
    rw [show ({i, i + d, i + 2 * d, i + 3 * d} : Finset Nat)
        = insert i (insert (i + d) (insert (i + 2 * d) {i + 3 * d})) from rfl,
      Finset.card_insert_of_not_mem hc1, Finset.card_insert_of_not_mem hc2,
      Finset.card_insert_of_not_mem hc3, Finset.card_singleton]
  calc (4 : Nat) = ({i, i + d, i + 2 * d, i + 3 * d} : Finset Nat).card := hcard.symm
    _ ≤ ((Finset.range 64).filter (fun j => n.testBit j)).card :=
        Finset.card_le_card hsub
    _ = discCount n := rfl

/-- C10: every position reached from the empty board by at most six legal
moves has `is_win() = false` — the just-moved player owns at most three
discs, and each shift-delta test needs four distinct set bits.  Hence the
root driver's immediate-win sentinel branches after the second and third
moves can never fire. -/
theorem claim_C10 (b : Board) (hb : Reachable b) (hm : b.moves ≤ 6) :
    b.is_win = false := by
  by_contra hne
  have hwin : b.is_win = true := by
    cases hw : b.is_win
    · exact absurd hw hne
    · rfl
  have hst := reachable_stacked b hb
  have hdc := discCount_mover b hst
  have hposlt : b.position ^^^ b.mask < 2 ^ 64 := by
    have h1 := stacked_position_lt b hst
    have h2 := stacked_mask_lt b hst
    have := Nat.xor_lt_two_pow h1 h2
    calc b.position ^^^ b.mask < 2 ^ 49 := this
      _ < 2 ^ 64 := by norm_num
  rcases is_win_four_bits b hwin with ⟨d, hd1, i, h0, h1, h2, h3⟩
  have hge := four_bits_le_discCount _ i d hd1 hposlt h0 h1 h2 h3
  omega

/-- C10 witness: the two-move board `3, 2`. -/
theorem claim_C10_witness : ((Board.new.play 3).play 2).is_win = false :=
  claim_C10 ((Board.new.play 3).play 2)
    (Reachable.step (Board.new.play 3) 2
      (Reachable.step Board.new 3 Reachable.base (by norm_num) (by decide))
      (by norm_num) (by decide))
    (by decide)

/-! ### Claim C8: termination of the search -/

theorem collectPar_isSome (slv : Table → Board → Int → Int → Option (Int × Table))
    (b : Board) (alpha beta : Int) (cols : List Nat) (t : Table)
    (h : ∀ col, b.can_play col = true →
      ∀ t2 a2 c2, (slv t2 (b.play col) a2 c2).isSome = true) :
    (collectPar slv b alpha beta cols t).isSome = true := by
  induction cols generalizing t with
  | nil => rfl
  | cons col rest ih =>
    rw [collectPar]
    cases hcp : b.can_play col with
    | false =>
      rw [if_neg (by simp [hcp])]
      exact ih t
    | true =>
      rw [if_pos rfl]
      cases hslv : slv t (b.play col) (-beta) (-alpha) with
      | none =>
        have := h col hcp t (-beta) (-alpha)
        rw [hslv] at this
        simp at this
      | some v =>
        obtain ⟨s1, t1⟩ := v
        cases hrest : collectPar slv b alpha beta rest t1 with
        | none =>
          have := ih t1
          rw [hrest] at this
          simp at this
        | some w =>
          obtain ⟨l2, t2⟩ := w
          show (match collectPar slv b alpha beta rest t1 with
            | none => none
            | some (l, t2) => some ((-s1, col) :: l, t2)).isSome = true
          rw [hrest]
          rfl

theorem seqLoop_isSome (slv : Table → Board → Int → Int → Option (Int × Table))
    (b : Board) (beta : Int) (cols : List Nat) (t : Table)
    (alpha maxS : Int) (best : Nat)
    (h : ∀ col, b.can_play col = true →
      ∀ t2 a2 c2, (slv t2 (b.play col) a2 c2).isSome = true) :
    (seqLoop slv b beta cols t alpha maxS best).isSome = true := by
  induction cols generalizing t alpha maxS best with
  | nil => rfl
  | cons col rest ih =>
    rw [seqLoop]
    cases hcp : b.can_play col with
    | false =>
      rw [if_neg (by simp [hcp])]
      exact ih t alpha maxS best
    | true =>
      rw [if_pos rfl]
      cases hslv : slv t (b.play col) (-beta) (-alpha) with
      | none =>
        have := h col hcp t (-beta) (-alpha)
        rw [hslv] at this
        simp at this
      | some v =>
        obtain ⟨s1, t1⟩ := v
        simp only []
        split
        · split
          · rfl
          · exact ih t1 _ _ _
        · split
          · rfl
          · exact ih t1 _ _ _


theorem finishStore_isSome (key : Nat) (res : Option (Int × Nat × Table))
    (h : res.isSome = true) : (finishStore key res).isSome = true := by
  cases res with
  | none => simp at h
  | some v =>
    obtain ⟨maxS, best, t1⟩ := v
    rfl

theorem parRun_isSome (slv : Table → Board → Int → Int → Option (Int × Table))
    (b : Board) (alpha beta1 : Int) (order : List Nat) (t : Table)
    (h : (collectPar slv b alpha beta1 order t).isSome = true) :
    (parRun slv b alpha beta1 order t).isSome = true := by
  unfold parRun
  cases hc : collectPar slv b alpha beta1 order t with
  | none =>
    rw [hc] at h
    simp at h
  | some v =>
    obtain ⟨results, t1⟩ := v
    rfl

theorem play_moves_succ (b : Board) (col : Nat) (h : b.moves ≤ 42) :
    (b.play col).moves = b.moves + 1 := by
  show (b.moves + 1) % 2 ^ 32 = b.moves + 1
  apply Nat.mod_eq_of_lt
  omega

theorem solveFuel_isSome (f : Nat) :
    ∀ (b : Board) (t : Table) (alpha beta : Int) (d : Nat),
      b.moves ≤ 42 → 42 < b.moves + f →
      (solveFuel f t b alpha beta d).isSome = true := by
  induction f with
  | zero =>
    intro b t alpha beta d h1 h2
    omega
  | succ f ih =>
    intro b t alpha beta d h1 h2
    have hSIZE : SIZE = 42 := rfl
    rw [solveFuel]
    rcases eq_or_ne b.moves SIZE with hm | hm
    · rw [if_pos hm]
      rfl
    · rw [if_neg hm]
      have hm42 : b.moves < 42 := by omega
      have hchild : ∀ col, b.can_play col = true →
          ∀ (t2 : Table) (a2 c2 : Int),
            (solveFuel f t2 (b.play col) a2 c2 (d + 1)).isSome = true := by
        intro col _ t2 a2 c2
        have hpm := play_moves_succ b col h1
        apply ih
        · omega
        · omega
      have hmain : ∀ (beta1 : Int),
          (finishStore b.key
            (if d < 4 then
              parRun (fun t2 b2 a2 c2 => solveFuel f t2 b2 a2 c2 (d + 1)) b alpha
                beta1 (applyHint (lookup t b.key).2) t
            else
              seqLoop (fun t2 b2 a2 c2 => solveFuel f t2 b2 a2 c2 (d + 1)) b beta1
                (applyHint (lookup t b.key).2) t alpha (-22)
                ((applyHint (lookup t b.key).2).headD 0))).isSome = true := by
        intro beta1
        apply finishStore_isSome
        rcases Nat.lt_or_ge d 4 with hd4 | hd4
        · rw [if_pos hd4]
          apply parRun_isSome
          apply collectPar_isSome
          intro col hcp t2 a2 c2
          exact hchild col hcp t2 a2 c2
        · rw [if_neg (by omega)]
          apply seqLoop_isSome
          intro col hcp t2 a2 c2
          exact hchild col hcp t2 a2 c2
      simp only []
      split
      · rfl
      · split
        · rfl
        · split
          · split
            · rfl
            · exact hmain (maxPVal b)
          · split
            · rfl
            · exact hmain beta

/-- C8: `solve` terminates on every valid board — the recursion, given fuel
`43 - moves`, never exhausts it: every recursive call is on a board whose
`moves` is exactly one greater, and the `moves = SIZE` check stops at 42. -/
theorem claim_C8 (b : Board) (t : Table) (alpha beta : Int) (d : Nat)
    (h : Valid b) :
    (∀ col : Nat, (b.play col).moves = b.moves + 1) ∧
    (solveFuel (43 - b.moves) t b alpha beta d).isSome = true := by
  obtain ⟨hdc, hle, hsub, hplt, hmlt⟩ := h
  constructor
  · intro col
    exact play_moves_succ b col hle
  · apply solveFuel_isSome
    · exact hle
    · omega

/-- C8 witness: the full board (42 discs, every column's six cells occupied),
where fuel 1 suffices and the terminal draw branch answers immediately. -/
theorem claim_C8_witness :
    Valid (Board.mk 0 279258638311359 42) ∧
    (solveFuel (43 - (Board.mk 0 279258638311359 42).moves) initTable
      (Board.mk 0 279258638311359 42) (-22) 22 0).isSome = true :=
  ⟨by constructor
      · decide
      · refine ⟨by norm_num, by decide, by norm_num, by norm_num⟩,
   (claim_C8 (Board.mk 0 279258638311359 42) initTable (-22) 22 0
     (by constructor
         · decide
         · refine ⟨by norm_num, by decide, by norm_num, by norm_num⟩)).2⟩

/-! ### Score bounds for the solver -/

theorem parFold_fst_le (results : List (Int × Nat)) :
    ∀ (alpha beta maxS : Int) (best : Nat), maxS ≤ 21 →
      (∀ x ∈ results, x.1 ≤ 21) → (parFold results alpha beta maxS best).1 ≤ 21 := by
  induction results with
  | nil =>
    intro alpha beta maxS best hm _
    exact hm
  | cons x rest ih =>
    intro alpha beta maxS best hm hall
    obtain ⟨score, col⟩ := x
    rw [parFold]
    have hs := hall (score, col) (List.mem_cons_self _ _)
    simp only [] at hs
    have hm1 : (if score > maxS then score else maxS) ≤ 21 := by
      split <;> omega
    have hrest : ∀ y ∈ rest, y.1 ≤ 21 :=
      fun y hy => hall y (List.mem_cons_of_mem _ hy)
    split
    · split
      · exact hm1
      · exact ih _ _ _ _ hm1 hrest
    · split
      · exact hm1
      · exact ih _ _ _ _ hm1 hrest

theorem parFold_fst_ge_maxS (results : List (Int × Nat)) :
    ∀ (alpha beta maxS : Int) (best : Nat), -21 ≤ maxS →
      -21 ≤ (parFold results alpha beta maxS best).1 := by
  induction results with
  | nil =>
    intro alpha beta maxS best hm
    exact hm
  | cons x rest ih =>
    intro alpha beta maxS best hm
    obtain ⟨score, col⟩ := x
    rw [parFold]
    have hm1 : -21 ≤ (if score > maxS then score else maxS) := by
      split <;> omega
    split
    · split
      · exact hm1
      · exact ih _ _ _ _ hm1
    · split
      · exact hm1
      · exact ih _ _ _ _ hm1

theorem parFold_fst_ge (x : Int × Nat) (rest : List (Int × Nat))
    (alpha beta maxS : Int) (best : Nat) (hx : -21 ≤ x.1) :
    -21 ≤ (parFold (x :: rest) alpha beta maxS best).1 := by
  obtain ⟨score, col⟩ := x
  simp only [] at hx
  rw [parFold]
  have hm1 : -21 ≤ (if score > maxS then score else maxS) := by
    split <;> omega
  split
  · split
    · exact hm1
    · exact parFold_fst_ge_maxS rest _ _ _ _ hm1
  · split
    · exact hm1
    · exact parFold_fst_ge_maxS rest _ _ _ _ hm1

theorem collectPar_mem_bound (slv : Table → Board → Int → Int → Option (Int × Table))
    (b : Board) (alpha beta : Int) (cols : List Nat) :
    ∀ (t : Table) (results : List (Int × Nat)) (t1 : Table),
      collectPar slv b alpha beta cols t = some (results, t1) →
      (∀ col ∈ cols, b.can_play col = true →
        ∀ (t2 : Table) (s : Int) (t3 : Table),
          slv t2 (b.play col) (-beta) (-alpha) = some (s, t3) → -21 ≤ s ∧ s ≤ 21) →
      ∀ x ∈ results, -21 ≤ x.1 ∧ x.1 ≤ 21 := by
  induction cols with
  | nil =>
    intro t results t1 hc _ x hx
    rw [collectPar] at hc
    injection hc with hc2
    injection hc2 with hr _
    rw [← hr] at hx
    simp at hx
  | cons col rest ih =>
    intro t results t1 hc hslv x hx
    rw [collectPar] at hc
    by_cases hcp : b.can_play col = true
    · rw [if_pos hcp] at hc
      cases hchild : slv t (b.play col) (-beta) (-alpha) with
      | none =>
        rw [hchild] at hc
        simp at hc
      | some v =>
        obtain ⟨s1, t2⟩ := v
        rw [hchild] at hc
        simp only [] at hc
        cases hrest : collectPar slv b alpha beta rest t2 with
        | none =>
          rw [hrest] at hc
          simp at hc
        | some w =>
          obtain ⟨l2, t3⟩ := w
          rw [hrest] at hc
          simp only [] at hc
          injection hc with hc2
          injection hc2 with hr ht
          have hs1 := hslv col (List.mem_cons_self _ _) hcp t s1 t2 hchild
          rw [← hr] at hx
          rcases List.mem_cons.mp hx with rfl | hx2
          · constructor <;> omega
          · exact ih t2 l2 t3 hrest
              (fun c hm hcp2 => hslv c (List.mem_cons_of_mem _ hm) hcp2) x hx2
    · rw [if_neg hcp] at hc
      exact ih t results t1 hc
        (fun c hm hcp2 => hslv c (List.mem_cons_of_mem _ hm) hcp2) x hx

theorem collectPar_ne_nil (slv : Table → Board → Int → Int → Option (Int × Table))
    (b : Board) (alpha beta : Int) (cols : List Nat) :
    ∀ (t : Table) (results : List (Int × Nat)) (t1 : Table),
      collectPar slv b alpha beta cols t = some (results, t1) →
      (∃ col ∈ cols, b.can_play col = true) → results ≠ [] := by
  induction cols with
  | nil =>
    intro t results t1 _ hex
    rcases hex with ⟨col, hm, _⟩
    simp at hm
  | cons col rest ih =>
    intro t results t1 hc hex
    rw [collectPar] at hc
    by_cases hcp : b.can_play col = true
    · rw [if_pos hcp] at hc
      cases hchild : slv t (b.play col) (-beta) (-alpha) with
      | none =>
        rw [hchild] at hc
        simp at hc
      | some v =>
        obtain ⟨s1, t2⟩ := v
        rw [hchild] at hc
        simp only [] at hc
        cases hrest : collectPar slv b alpha beta rest t2 with
        | none =>
          rw [hrest] at hc
          simp at hc
        | some w =>
          obtain ⟨l2, t3⟩ := w
          rw [hrest] at hc
          simp only [] at hc
          injection hc with hc2
          injection hc2 with hr _
          rw [← hr]
          simp
    · rw [if_neg hcp] at hc
      apply ih t results t1 hc
      rcases hex with ⟨c, hm, hcpc⟩
      rcases List.mem_cons.mp hm with rfl | hm2
      · exact absurd hcpc hcp
      · exact ⟨c, hm2, hcpc⟩

theorem seqLoop_le (slv : Table → Board → Int → Int → Option (Int × Table))
    (b : Board) (beta : Int) (cols : List Nat) :
    ∀ (t : Table) (alpha maxS : Int) (best : Nat) (m : Int) (bst : Nat) (t2 : Table),
      seqLoop slv b beta cols t alpha maxS best = some (m, bst, t2) →
      maxS ≤ 21 → alpha < beta →
      (∀ col ∈ cols, b.can_play col = true →
        ∀ (t3 : Table) (a2 : Int), a2 < beta →
        ∀ (s : Int) (t4 : Table),
          slv t3 (b.play col) (-beta) (-a2) = some (s, t4) → -21 ≤ s ∧ s ≤ 21) →
      m ≤ 21 := by
  induction cols with
  | nil =>
    intro t alpha maxS best m bst t2 hs hm _ _
    rw [seqLoop] at hs
    injection hs with hs2
    injection hs2 with h1 _
    omega
  | cons col rest ih =>
    intro t alpha maxS best m bst t2 hs hm halpha hslv
    rw [seqLoop] at hs
    by_cases hcp : b.can_play col = true
    · rw [if_pos hcp] at hs
      cases hchild : slv t (b.play col) (-beta) (-alpha) with
      | none =>
        rw [hchild] at hs
        simp at hs
      | some v =>
        obtain ⟨s0, t1⟩ := v
        rw [hchild] at hs
        simp only [] at hs
        have hb := hslv col (List.mem_cons_self _ _) hcp t alpha halpha s0 t1 hchild
        have hm1 : (if -s0 > maxS then -s0 else maxS) ≤ 21 := by
          split <;> omega
        split at hs
        · rename_i hgta
          split at hs
          · injection hs with hs2
            injection hs2 with h1 _
            omega
          · rename_i hnb
            exact ih t1 _ _ _ m bst t2 hs hm1 (by omega)
              fun c hmem hcp2 => hslv c (List.mem_cons_of_mem _ hmem) hcp2
        · rename_i hngta
          split at hs
          · injection hs with hs2
            injection hs2 with h1 _
            omega
          · rename_i hnb
            exact ih t1 _ _ _ m bst t2 hs hm1 (by omega)
              fun c hmem hcp2 => hslv c (List.mem_cons_of_mem _ hmem) hcp2
    · rw [if_neg hcp] at hs
      exact ih t alpha maxS best m bst t2 hs hm halpha
        fun c hmem hcp2 => hslv c (List.mem_cons_of_mem _ hmem) hcp2

theorem seqLoop_ge (slv : Table → Board → Int → Int → Option (Int × Table))
    (b : Board) (beta : Int) (cols : List Nat) :
    ∀ (t : Table) (alpha maxS : Int) (best : Nat) (m : Int) (bst : Nat) (t2 : Table),
      seqLoop slv b beta cols t alpha maxS best = some (m, bst, t2) →
      (-21 ≤ maxS ∨ ∃ col ∈ cols, b.can_play col = true) → alpha < beta →
      (∀ col ∈ cols, b.can_play col = true →
        ∀ (t3 : Table) (a2 : Int), a2 < beta →
        ∀ (s : Int) (t4 : Table),
          slv t3 (b.play col) (-beta) (-a2) = some (s, t4) → -21 ≤ s ∧ s ≤ 21) →
      -21 ≤ m := by
  induction cols with
  | nil =>
    intro t alpha maxS best m bst t2 hs hd _ _
    rw [seqLoop] at hs
    injection hs with hs2
    injection hs2 with h1 _
    rcases hd with hd | ⟨c, hm2, _⟩
    · omega
    · simp at hm2
  | cons col rest ih =>
    intro t alpha maxS best m bst t2 hs hd halpha hslv
    rw [seqLoop] at hs
    by_cases hcp : b.can_play col = true
    · rw [if_pos hcp] at hs
      cases hchild : slv t (b.play col) (-beta) (-alpha) with
      | none =>
        rw [hchild] at hs
        simp at hs
      | some v =>
        obtain ⟨s0, t1⟩ := v
        rw [hchild] at hs
        simp only [] at hs
        have hb := hslv col (List.mem_cons_self _ _) hcp t alpha halpha s0 t1 hchild
        have hm1 : -21 ≤ (if -s0 > maxS then -s0 else maxS) := by
          split <;> omega
        split at hs
        · rename_i hgta
          split at hs
          · injection hs with hs2
            injection hs2 with h1 _
            omega
          · rename_i hnb
            exact ih t1 _ _ _ m bst t2 hs (Or.inl hm1) (by omega)
              fun c hmem hcp2 => hslv c (List.mem_cons_of_mem _ hmem) hcp2
        · rename_i hngta
          split at hs
          · injection hs with hs2
            injection hs2 with h1 _
            omega
          · rename_i hnb
            exact ih t1 _ _ _ m bst t2 hs (Or.inl hm1) (by omega)
              fun c hmem hcp2 => hslv c (List.mem_cons_of_mem _ hmem) hcp2
    · rw [if_neg hcp] at hs
      have hd2 : -21 ≤ maxS ∨ ∃ c ∈ rest, b.can_play c = true := by
        rcases hd with hd | ⟨c, hm2, hcpc⟩
        · exact Or.inl hd
        · rcases List.mem_cons.mp hm2 with rfl | hm3
          · exact absurd hcpc hcp
          · exact Or.inr ⟨c, hm3, hcpc⟩
      exact ih t alpha maxS best m bst t2 hs hd2 halpha
        fun c hmem hcp2 => hslv c (List.mem_cons_of_mem _ hmem) hcp2

theorem applyHint_mem (bc? : Option Nat) (col : Nat) (hcol : col < 7) :
    col ∈ applyHint bc? := by
  cases bc? with
  | none => interval_cases col <;> decide
  | some bc =>
    rcases lt_or_ge bc 7 with hbc | hbc
    · interval_cases bc <;> interval_cases col <;> decide
    · have hw : ¬ (bc < WIDTH) := by
        simp [WIDTH]
        omega
      have happ : applyHint (some bc) = baseOrder := by
        simp only [applyHint]
        rw [if_neg hw]
      rw [happ]
      interval_cases col <;> decide

theorem applyHint_lt (bc? : Option Nat) : ∀ col ∈ applyHint bc?, col < 7 := by
  cases bc? with
  | none => decide
  | some bc =>
    rcases lt_or_ge bc 7 with hbc | hbc
    · interval_cases bc <;> decide
    · have hw : ¬ (bc < WIDTH) := by
        simp [WIDTH]
        omega
      intro col hm
      have happ : applyHint (some bc) = baseOrder := by
        simp only [applyHint]
        rw [if_neg hw]
      rw [happ] at hm
      revert hm
      revert col
      decide

theorem exists_playable (b : Board) (hst : Stacked b) (hm : b.moves < 42) :
    ∃ col, col < 7 ∧ b.can_play col = true := by
  rcases hst with ⟨cols, hlen, hx, hmask, _, hmv, _⟩
  by_contra hcon
  push_neg at hcon
  have hall : ∀ c, c < 7 → (cols.getD c (0, 0)).1 = 6 := by
    intro c hc
    have hncp := hcon c hc
    have hiff := can_play_iff_height b cols hlen hx hmask c hc
    have hle := (hx _ (getD_mem_of_lt cols c (by omega))).1
    have : ¬ ((cols.getD c (0, 0)).1 < 6) := by
      intro hlt
      exact hncp (hiff.mpr hlt)
    omega
  have hsum : (cols.map fun x : Nat × Nat => x.1).sum = 42 := by
    rw [sum_eq_sum_getD, List.length_map, hlen]
    have hcong : ∀ c ∈ Finset.range 7,
        (cols.map fun x : Nat × Nat => x.1).getD c 0 = 6 := by
      intro c hc
      have hc7 := Finset.mem_range.mp hc
      rw [getD_map_of_lt _ cols c (by omega)]
      exact hall c hc7
    rw [Finset.sum_congr rfl hcong]
    simp
  omega

theorem wsub32_small (a b : Nat) (hab : b ≤ a) (ha : a < 2 ^ 32) :
    wsub32 a b = a - b := by
  unfold wsub32
  rw [Nat.mod_eq_of_lt (by omega : a < 2 ^ 32),
    Nat.mod_eq_of_lt (by omega : b < 2 ^ 32)]
  have hval : a + 2 ^ 32 - b = (a - b) + 2 ^ 32 := by omega
  rw [hval, Nat.add_mod_right]
  exact Nat.mod_eq_of_lt (by omega)

theorem toI8_small (n : Nat) (h : n < 128) : toI8 n = (n : Int) := by
  unfold toI8
  rw [Nat.mod_eq_of_lt (by omega)]
  rw [if_pos h]

theorem i8div2_nat (n : Nat) : i8div2 (n : Int) = ((n / 2 : Nat) : Int) := by
  unfold i8div2
  rw [if_pos (by positivity)]
  norm_num

theorem winVal_bound (b : Board) (h : b.moves < 42) :
    0 ≤ winVal b ∧ winVal b ≤ 21 := by
  unfold winVal
  have hS : SIZE + 1 = 43 := rfl
  rw [hS, wsub32_small 43 b.moves (by omega) (by norm_num),
    toI8_small _ (by omega), i8div2_nat]
  have h1 : (43 - b.moves) / 2 ≤ 21 := by omega
  constructor
  · positivity
  · exact_mod_cast h1

theorem maxPVal_bound (b : Board) (h : b.moves < 42) :
    0 ≤ maxPVal b ∧ maxPVal b ≤ 20 := by
  unfold maxPVal
  have hS : SIZE - 1 = 41 := rfl
  rw [hS, wsub32_small 41 b.moves (by omega) (by norm_num),
    toI8_small _ (by omega), i8div2_nat]
  have h1 : (41 - b.moves) / 2 ≤ 20 := by omega
  constructor
  · positivity
  · exact_mod_cast h1

theorem finishStore_eq_some (key : Nat) (res : Option (Int × Nat × Table))
    (s : Int) (t2 : Table) (h : finishStore key res = some (s, t2)) :
    ∃ best t1, res = some (s, best, t1) := by
  cases res with
  | none => simp [finishStore] at h
  | some v =>
    obtain ⟨maxS, best, t1⟩ := v
    unfold finishStore at h
    simp only [] at h
    injection h with h2
    injection h2 with h3 _
    exact ⟨best, t1, by rw [h3]⟩

theorem parRun_eq_some (slv : Table → Board → Int → Int → Option (Int × Table))
    (b : Board) (alpha beta1 : Int) (order : List Nat) (t : Table)
    (s : Int) (best : Nat) (t1 : Table)
    (h : parRun slv b alpha beta1 order t = some (s, best, t1)) :
    ∃ results, collectPar slv b alpha beta1 order t = some (results, t1) ∧
      s = (parFold results alpha beta1 (-22) (order.headD 0)).1 := by
  unfold parRun at h
  cases hc : collectPar slv b alpha beta1 order t with
  | none =>
    rw [hc] at h
    simp at h
  | some v =>
    obtain ⟨results, t3⟩ := v
    rw [hc] at h
    simp only [] at h
    injection h with h2
    injection h2 with h3 h4
    injection h4 with h5 h6
    refine ⟨results, ?_, h3.symm⟩
    rw [h6]

theorem solveFuel_bound (f : Nat) :
    ∀ (b : Board) (t : Table) (alpha beta : Int) (d : Nat) (s : Int) (t2 : Table),
      Stacked b → alpha < beta →
      solveFuel f t b alpha beta d = some (s, t2) →
      -21 ≤ s ∧ s ≤ 21 := by
  induction f with
  | zero =>
    intro b t alpha beta d s t2 _ _ heq
    simp [solveFuel] at heq
  | succ f ih =>
    intro b t alpha beta d s t2 hst halpha heq
    have hSIZE : SIZE = 42 := rfl
    have hmle := stacked_moves_le b hst
    rw [solveFuel] at heq
    rcases eq_or_ne b.moves SIZE with hm | hm
    · rw [if_pos hm] at heq
      injection heq with h2
      injection h2 with h3 _
      omega
    · rw [if_neg hm] at heq
      have hm42 : b.moves < 42 := by omega
      have hnc : ¬ ((lookup t b.key).1.isSome = true ∧ alpha ≥ beta) := by
        rintro ⟨_, hge⟩
        omega
      simp only [] at heq
      rw [if_neg hnc] at heq
      split at heq
      · -- immediate-win short-circuit
        injection heq with h2
        injection h2 with h3 _
        have := winVal_bound b hm42
        omega
      · -- children hypothesis for both loop shapes
        have hchild : ∀ (beta1 : Int), alpha < beta1 →
            ∀ col ∈ applyHint (lookup t b.key).2, b.can_play col = true →
            ∀ (t3 : Table) (a2 : Int), a2 < beta1 →
            ∀ (s1 : Int) (t4 : Table),
              solveFuel f t3 (b.play col) (-beta1) (-a2) (d + 1) = some (s1, t4) →
              -21 ≤ s1 ∧ s1 ≤ 21 := by
          intro beta1 _ col hmem hcp t3 a2 ha2 s1 t4 hsol
          have hcol7 := applyHint_lt (lookup t b.key).2 col hmem
          have hstc := Stacked_play b col hcol7 hcp hst
          exact ih (b.play col) t3 (-beta1) (-a2) (d + 1) s1 t4 hstc
            (by omega) hsol
        have hplay : ∃ col ∈ applyHint (lookup t b.key).2, b.can_play col = true := by
          rcases exists_playable b hst hm42 with ⟨col, hcol7, hcp⟩
          exact ⟨col, applyHint_mem _ col hcol7, hcp⟩
        have hmaxP := maxPVal_bound b hm42
        split at heq
        · -- beta clamped to max_p
          split at heq
          · injection heq with h2
            injection h2 with h3 _
            omega
          · -- main search with beta1 = maxPVal b
            rename_i hgt hncut
            have hab : alpha < maxPVal b := by
              rcases Decidable.em (alpha ≥ maxPVal b) with hc | hc
              · exact absurd ⟨by omega, hc⟩ hncut
              · omega
            rcases finishStore_eq_some _ _ _ _ heq with ⟨best, t1, hres⟩
            rcases Nat.lt_or_ge d 4 with hd4 | hd4
            · rw [if_pos hd4] at hres
              rcases parRun_eq_some _ _ _ _ _ _ _ _ _ hres with ⟨results, hcoll, hsval⟩
              have hbnd := collectPar_mem_bound _ b alpha (maxPVal b) _ t results t1
                hcoll (fun col hmem hcp t3 s1 t4 hsol =>
                  hchild (maxPVal b) hab col hmem hcp t3 alpha hab s1 t4 hsol)
              have hne := collectPar_ne_nil _ b alpha (maxPVal b) _ t results t1
                hcoll hplay
              rcases results with _ | ⟨x, rest⟩
              · exact absurd rfl hne
              · rw [hsval]
                constructor
                · exact parFold_fst_ge x rest _ _ _ _ (hbnd x (List.mem_cons_self _ _)).1
                · exact parFold_fst_le (x :: rest) _ _ _ _ (by omega)
                    fun y hy => (hbnd y hy).2
            · rw [if_neg (by omega)] at hres
              constructor
              · exact seqLoop_ge _ b (maxPVal b) _ t alpha (-22) _ s best t1 hres
                  (Or.inr hplay) hab
                  (fun col hmem hcp t3 a2 ha2 s1 t4 hsol =>
                    hchild (maxPVal b) hab col hmem hcp t3 a2 ha2 s1 t4 hsol)
              · exact seqLoop_le _ b (maxPVal b) _ t alpha (-22) _ s best t1 hres
                  (by omega) hab
                  (fun col hmem hcp t3 a2 ha2 s1 t4 hsol =>
                    hchild (maxPVal b) hab col hmem hcp t3 a2 ha2 s1 t4 hsol)
        · -- beta unchanged
          split at heq
          · rename_i hngt hcut
            exact absurd hcut.1 (by assumption)
          · rename_i hngt hncut
            rcases finishStore_eq_some _ _ _ _ heq with ⟨best, t1, hres⟩
            rcases Nat.lt_or_ge d 4 with hd4 | hd4
            · rw [if_pos hd4] at hres
              rcases parRun_eq_some _ _ _ _ _ _ _ _ _ hres with ⟨results, hcoll, hsval⟩
              have hbnd := collectPar_mem_bound _ b alpha beta _ t results t1
                hcoll (fun col hmem hcp t3 s1 t4 hsol =>
                  hchild beta halpha col hmem hcp t3 alpha halpha s1 t4 hsol)
              have hne := collectPar_ne_nil _ b alpha beta _ t results t1
                hcoll hplay
              rcases results with _ | ⟨x, rest⟩
              · exact absurd rfl hne
              · rw [hsval]
                constructor
                · exact parFold_fst_ge x rest _ _ _ _ (hbnd x (List.mem_cons_self _ _)).1
                · exact parFold_fst_le (x :: rest) _ _ _ _ (by omega)
                    fun y hy => (hbnd y hy).2
            · rw [if_neg (by omega)] at hres
              constructor
              · exact seqLoop_ge _ b beta _ t alpha (-22) _ s best t1 hres
                  (Or.inr hplay) halpha
                  (fun col hmem hcp t3 a2 ha2 s1 t4 hsol =>
                    hchild beta halpha col hmem hcp t3 a2 ha2 s1 t4 hsol)
              · exact seqLoop_le _ b beta _ t alpha (-22) _ s best t1 hres
                  (by omega) halpha
                  (fun col hmem hcp t3 a2 ha2 s1 t4 hsol =>
                    hchild beta halpha col hmem hcp t3 a2 ha2 s1 t4 hsol)

/-! ### Claim C6: the root driver's aggregation -/

theorem can_play_new (col : Nat) : Board.new.can_play col = true := by
  have h : Board.new.mask &&& (1 <<< (col * (HEIGHT + 1) + HEIGHT - 1)) = 0 :=
    Nat.zero_and _
  unfold Board.can_play
  rw [h]
  rfl

theorem rootTasks_mem (b1 : Board) (task : Nat × Nat × Int)
    (h : task ∈ rootTasks b1) :
    task.1 < 7 ∧ b1.can_play task.1 = true ∧
      (task.2.2 = 21 ∨
        (task.2.2 = 0 ∧ task.2.1 < 7 ∧
          (b1.play task.1).can_play task.2.1 = true)) := by
  unfold rootTasks at h
  rcases List.mem_flatMap.mp h with ⟨col2, hcol2, hbr⟩
  have hc7 : col2 < 7 := List.mem_range.mp hcol2
  by_cases hcp : b1.can_play col2 = true
  · rw [if_pos hcp] at hbr
    by_cases hw : (b1.play col2).is_win = true
    · rw [if_pos hw] at hbr
      have htask : task = (col2, 999, 21) := List.mem_singleton.mp hbr
      subst htask
      exact ⟨hc7, hcp, Or.inl rfl⟩
    · rw [if_neg hw] at hbr
      rcases List.mem_filterMap.mp hbr with ⟨col3, hcol3, hmap⟩
      have hc37 : col3 < 7 := List.mem_range.mp hcol3
      by_cases hcp3 : (b1.play col2).can_play col3 = true
      · rw [if_pos hcp3] at hmap
        injection hmap with htask
        subst htask
        exact ⟨hc7, hcp, Or.inr ⟨rfl, hc37, hcp3⟩⟩
      · rw [if_neg hcp3] at hmap
        exact absurd hmap (by simp)
  · rw [if_neg hcp] at hbr
    simp at hbr

theorem rootTasks_exists (b1 : Board) (hr1 : Reachable b1) (hm1 : b1.moves ≤ 40)
    (c2 : Nat) (hc2 : c2 < 7) (hcp : b1.can_play c2 = true) :
    ∃ task ∈ rootTasks b1, task.1 = c2 := by
  by_cases hw : (b1.play c2).is_win = true
  · refine ⟨(c2, 999, 21), ?_, rfl⟩
    unfold rootTasks
    apply List.mem_flatMap.mpr
    refine ⟨c2, List.mem_range.mpr hc2, ?_⟩
    rw [if_pos hcp, if_pos hw]
    exact List.mem_singleton.mpr rfl
  · have hst1 := reachable_stacked b1 hr1
    have hr2 : Reachable (b1.play c2) := Reachable.step b1 c2 hr1 hc2 hcp
    have hst2 := reachable_stacked _ hr2
    have hm2 : (b1.play c2).moves < 42 := by
      rw [play_moves_succ b1 c2 (by omega)]
      omega
    rcases exists_playable _ hst2 hm2 with ⟨col3, hc37, hcp3⟩
    refine ⟨(c2, col3, 0), ?_, rfl⟩
    unfold rootTasks
    apply List.mem_flatMap.mpr
    refine ⟨c2, List.mem_range.mpr hc2, ?_⟩
    rw [if_pos hcp, if_neg hw]
    apply List.mem_filterMap.mpr
    refine ⟨col3, List.mem_range.mpr hc37, ?_⟩
    rw [if_pos hcp3]

theorem runTasks_keys (fuel col1 : Nat) (tasks : List (Nat × Nat × Int)) :
    ∀ (t : Table) (results : List (Nat × Int)) (t2 : Table),
      runTasks fuel col1 tasks t = some (results, t2) →
      results.map Prod.fst = tasks.map fun task => task.1 := by
  induction tasks with
  | nil =>
    intro t results t2 h
    rw [runTasks] at h
    injection h with h2
    injection h2 with hr _
    rw [← hr]
    rfl
  | cons task rest ih =>
    intro t results t2 h
    rw [runTasks] at h
    cases hts : taskScore fuel t col1 task with
    | none =>
      rw [hts] at h
      simp at h
    | some v =>
      obtain ⟨s, t1⟩ := v
      rw [hts] at h
      simp only [] at h
      cases hrest : runTasks fuel col1 rest t1 with
      | none =>
        rw [hrest] at h
        simp at h
      | some w =>
        obtain ⟨l2, t3⟩ := w
        rw [hrest] at h
        simp only [] at h
        injection h with h2
        injection h2 with hr _
        rw [← hr]
        show task.1 :: l2.map Prod.fst = task.1 :: rest.map fun task => task.1
        rw [ih t1 l2 t3 hrest]

theorem taskScore_bound (fuel col1 : Nat) (hcol1 : col1 < 7)
    (task : Nat × Nat × Int)
    (htask : task.1 < 7 ∧ (Board.new.play col1).can_play task.1 = true ∧
      (task.2.2 = 21 ∨ (task.2.2 = 0 ∧ task.2.1 < 7 ∧
        ((Board.new.play col1).play task.1).can_play task.2.1 = true)))
    (t : Table) (s : Int) (t1 : Table)
    (h : taskScore fuel t col1 task = some (s, t1)) : s ≤ 21 := by
  obtain ⟨hk7, hkcp, hcases⟩ := htask
  unfold taskScore at h
  by_cases hpre : task.2.2 ≠ 0
  · rw [if_pos hpre] at h
    injection h with h2
    injection h2 with h3 _
    rcases hcases with h21 | ⟨h0, _, _⟩
    · omega
    · exact absurd h0 hpre
  · rw [if_neg hpre] at h
    push_neg at hpre
    rcases hcases with h21 | ⟨_, hc37, hcp3⟩
    · omega
    · by_cases hw : (((Board.new.play col1).play task.1).play task.2.1).is_win = true
      · rw [if_pos hw] at h
        injection h with h2
        injection h2 with h3 _
        omega
      · rw [if_neg hw] at h
        have hr3 : Reachable (((Board.new.play col1).play task.1).play task.2.1) :=
          Reachable.step _ _ (Reachable.step _ _
            (Reachable.step _ _ Reachable.base hcol1 (can_play_new col1))
            hk7 hkcp) hc37 hcp3
        have hst3 := reachable_stacked _ hr3
        exact (solveFuel_bound fuel _ t (-22) 22 0 s t1 hst3 (by norm_num) h).2

theorem runTasks_bound (fuel col1 : Nat) (hcol1 : col1 < 7)
    (tasks : List (Nat × Nat × Int))
    (htasks : ∀ task ∈ tasks, task.1 < 7 ∧
      (Board.new.play col1).can_play task.1 = true ∧
      (task.2.2 = 21 ∨ (task.2.2 = 0 ∧ task.2.1 < 7 ∧
        ((Board.new.play col1).play task.1).can_play task.2.1 = true))) :
    ∀ (t : Table) (results : List (Nat × Int)) (t2 : Table),
      runTasks fuel col1 tasks t = some (results, t2) →
      ∀ x ∈ results, x.2 ≤ 21 := by
  induction tasks with
  | nil =>
    intro t results t2 h x hx
    rw [runTasks] at h
    injection h with h2
    injection h2 with hr _
    rw [← hr] at hx
    simp at hx
  | cons task rest ih =>
    intro t results t2 h x hx
    rw [runTasks] at h
    cases hts : taskScore fuel t col1 task with
    | none =>
      rw [hts] at h
      simp at h
    | some v =>
      obtain ⟨s, t1⟩ := v
      rw [hts] at h
      simp only [] at h
      cases hrest : runTasks fuel col1 rest t1 with
      | none =>
        rw [hrest] at h
        simp at h
      | some w =>
        obtain ⟨l2, t3⟩ := w
        rw [hrest] at h
        simp only [] at h
        injection h with h2
        injection h2 with hr _
        rw [← hr] at hx
        rcases List.mem_cons.mp hx with rfl | hx2
        · exact taskScore_bound fuel col1 hcol1 task
            (htasks task (List.mem_cons_self _ _)) t s t1 hts
        · exact ih (fun tk hm => htasks tk (List.mem_cons_of_mem _ hm))
            t1 l2 t3 hrest x hx2

theorem listMin?_foldl_some (xs : List Int) :
    ∀ a, xs.foldl (fun acc x => match acc with
      | none => some x
      | some m => some (min m x)) (some a) = some (xs.foldl min a) := by
  induction xs with
  | nil => intro a; rfl
  | cons x rest ih =>
    intro a
    show rest.foldl _ (some (min a x)) = some (rest.foldl min (min a x))
    exact ih (min a x)

theorem listMin?_cons (x : Int) (xs : List Int) :
    listMin? (x :: xs) = some (xs.foldl min x) := by
  show xs.foldl _ (some x) = some (xs.foldl min x)
  exact listMin?_foldl_some xs x

theorem foldl_min_22 (xs : List Int) (hne : xs ≠ [])
    (hall : ∀ y ∈ xs, y ≤ 21) :
    xs.foldl min 22 = (listMin? xs).getD 0 := by
  cases xs with
  | nil => exact absurd rfl hne
  | cons x rest =>
    rw [listMin?_cons]
    show rest.foldl min (min 22 x) = (some (rest.foldl min x)).getD 0
    have hx := hall x (List.mem_cons_self _ _)
    have h22 : min 22 x = x := min_eq_right (by omega)
    rw [h22]
    rfl

theorem foldMin_spec (results : List (Nat × Int)) :
    ∀ (m : Nat → Option Int) (c : Nat),
      (results.foldl (fun m p => mapInsertMin m p.1 p.2) m) c
      = if (results.filter (fun p => p.1 = c)).isEmpty then m c
        else some (((results.filter (fun p => p.1 = c)).map Prod.snd).foldl
          min ((m c).getD 22)) := by
  induction results with
  | nil =>
    intro m c
    rfl
  | cons p rest ih =>
    intro m c
    show (rest.foldl (fun m p => mapInsertMin m p.1 p.2) (mapInsertMin m p.1 p.2)) c = _
    rw [ih (mapInsertMin m p.1 p.2) c]
    by_cases hpc : p.1 = c
    · have hfc : (p :: rest).filter (fun q => q.1 = c) =
          p :: rest.filter (fun q => q.1 = c) :=
        List.filter_cons_of_pos (by simp [hpc])
      have hmc : mapInsertMin m p.1 p.2 c = some (min ((m c).getD 22) p.2) := by
        unfold mapInsertMin
        rw [if_pos hpc.symm, hpc]
      rw [hfc]
      by_cases hempty : (rest.filter (fun q => q.1 = c)).isEmpty = true
      · rw [if_pos hempty]
        have hnil : rest.filter (fun q => q.1 = c) = [] :=
          List.isEmpty_iff.mp hempty
        rw [hmc]
        have hrhs : ((p :: rest.filter fun q => q.1 = c).map Prod.snd).foldl
            min ((m c).getD 22)
            = min ((m c).getD 22) p.2 := by
          rw [hnil]
          rfl
        rw [if_neg (by simp), hrhs]
      · rw [if_neg hempty, hmc]
        rw [if_neg (by simp)]
        have hget : (some (min ((m c).getD 22) p.2)).getD 22
            = min ((m c).getD 22) p.2 := rfl
        rw [hget]
        rfl
    · have hfc : (p :: rest).filter (fun q => q.1 = c) =
          rest.filter (fun q => q.1 = c) :=
        List.filter_cons_of_neg (by simp [hpc])
      have hmc : mapInsertMin m p.1 p.2 c = m c := by
        unfold mapInsertMin
        rw [if_neg (fun hc => hpc hc.symm)]
      rw [hfc, hmc]

theorem filterMap_eq_map_filter (l : List Nat) (m : Nat → Option Int)
    (p : Nat → Bool) (g : Nat → Int)
    (h : ∀ c ∈ l, m c = if p c then some (g c) else none) :
    l.filterMap m = (l.filter p).map g := by
  induction l with
  | nil => rfl
  | cons c rest ih =>
    have hc := h c (List.mem_cons_self _ _)
    have hrest := ih fun x hx => h x (List.mem_cons_of_mem _ hx)
    by_cases hpc : p c = true
    · rw [if_pos hpc] at hc
      rw [List.filterMap_cons, hc, List.filter_cons_of_pos hpc, List.map_cons, hrest]
    · rw [if_neg hpc] at hc
      rw [List.filterMap_cons, hc, List.filter_cons_of_neg hpc, hrest]

/-- C6: for each first move, the root driver's aggregated value (the
`min_scores` HashMap fold followed by `values().max().unwrap_or(0)`) equals
the maximum, over all distinct legal second moves, of the minimum score
across that second move's third-move children, where each child's score is
what the task list produced (a winning second move contributes its sentinel
score 21; the other children carry the Solver's result for the three-move
position).  Stated over every single-threaded execution of the task list
that completes (`runTasks ... = some ...`). -/
theorem claim_C6 (col1 : Fin 7) (fuel : Nat) (t : Table) :
    (runTasks fuel (col1 : Nat) (rootTasks (Board.new.play (col1 : Nat))) t).elim
      True
      (fun r => aggregate r.1
        = specRootValue (Board.new.play (col1 : Nat)) r.1) := by
  cases hrun : runTasks fuel (col1 : Nat) (rootTasks (Board.new.play (col1 : Nat))) t with
  | none => trivial
  | some r =>
    obtain ⟨results, t2⟩ := r
    show aggregate results = specRootValue (Board.new.play (col1 : Nat)) results
    have hr1 : Reachable (Board.new.play (col1 : Nat)) :=
      Reachable.step Board.new (col1 : Nat) Reachable.base col1.isLt
        (can_play_new (col1 : Nat))
    have hm1 : (Board.new.play (col1 : Nat)).moves = 1 := rfl
    have hkeys := runTasks_keys fuel (col1 : Nat)
      (rootTasks (Board.new.play (col1 : Nat))) t results t2 hrun
    have hbound := runTasks_bound fuel (col1 : Nat) col1.isLt
      (rootTasks (Board.new.play (col1 : Nat)))
      (fun task hm => rootTasks_mem (Board.new.play (col1 : Nat)) task hm)
      t results t2 hrun
    have hchar : ∀ c ∈ List.range WIDTH,
        (results.foldl (fun m p => mapInsertMin m p.1 p.2) (fun _ => none)) c
        = if (Board.new.play (col1 : Nat)).can_play c then
            some ((listMin? ((results.filter (fun p => p.1 = c)).map
              Prod.snd)).getD 0)
          else none := by
      intro c hc
      have hc7 : c < 7 := List.mem_range.mp hc
      rw [foldMin_spec results (fun _ => none) c]
      by_cases hcp : (Board.new.play (col1 : Nat)).can_play c = true
      · have hex : ∃ x ∈ results, x.1 = c := by
          rcases rootTasks_exists (Board.new.play (col1 : Nat)) hr1 (by omega)
            c hc7 hcp with ⟨task, htm, htc⟩
          have hcm : c ∈ (rootTasks (Board.new.play (col1 : Nat))).map
              fun task => task.1 :=
            List.mem_map.mpr ⟨task, htm, htc⟩
          rw [← hkeys] at hcm
          rcases List.mem_map.mp hcm with ⟨x, hx, hxc⟩
          exact ⟨x, hx, hxc⟩
        have hfilter_ne : results.filter (fun p => p.1 = c) ≠ [] := by
          rcases hex with ⟨x, hx, hxc⟩
          intro hnil
          have : x ∈ results.filter (fun p => p.1 = c) :=
            List.mem_filter.mpr ⟨hx, by simp [hxc]⟩
          rw [hnil] at this
          simp at this
        have hempty : ((results.filter (fun p => p.1 = c)).isEmpty) = false := by
          rcases hne : (results.filter (fun p => p.1 = c)).isEmpty with _ | _
          · exact hne
          · exact absurd (List.isEmpty_iff.mp hne) hfilter_ne
        rw [hempty]
        rw [if_neg (by simp), if_pos hcp]
        have hgd : (((fun _ : Nat => (none : Option Int)) c).getD 22) = 22 := rfl
        rw [hgd]
        have hmapne : (results.filter (fun p => p.1 = c)).map Prod.snd ≠ [] := by
          intro hnil
          exact hfilter_ne (List.map_eq_nil_iff.mp hnil)
        have hmapb : ∀ y ∈ (results.filter (fun p => p.1 = c)).map Prod.snd,
            y ≤ 21 := by
          intro y hy
          rcases List.mem_map.mp hy with ⟨q, hq, rfl⟩
          exact hbound q (List.mem_filter.mp hq).1
        rw [foldl_min_22 _ hmapne hmapb]
      · have hfilter_nil : results.filter (fun p => p.1 = c) = [] := by
          by_contra hne
          rcases List.exists_mem_of_ne_nil _ hne with ⟨x, hx⟩
          have hxr := (List.mem_filter.mp hx).1
          have hxc : x.1 = c := by
            have := (List.mem_filter.mp hx).2
            simpa using this
          have hcm : c ∈ results.map Prod.fst := List.mem_map.mpr ⟨x, hxr, hxc⟩
          rw [hkeys] at hcm
          rcases List.mem_map.mp hcm with ⟨task, htm, htc⟩
          have := (rootTasks_mem (Board.new.play (col1 : Nat)) task htm).2.1
          rw [htc] at this
          exact hcp this
        rw [hfilter_nil]
        simp [hcp]
    unfold aggregate specRootValue
    simp only []
    rw [filterMap_eq_map_filter (List.range WIDTH) _
      (fun c2 => (Board.new.play (col1 : Nat)).can_play c2)
      (fun c2 => (listMin? ((results.filter (fun p => p.1 = c2)).map
        Prod.snd)).getD 0) hchar]
